import Mathlib

/-!
Verification of the elementwise GPU kernel dispatch engine of
`aten/src/ATen/native/cuda/Loops.cuh` and of the pickling entry points of
`torch/csrc/jit/pickle.cpp`, against the repository's specification.

Modelling conventions (shallow embedding):
* Device memory is modelled one buffer per operand as a total map from byte
  addresses (`Int`) to the mathematical value of the scalar element whose
  first byte lies at that address.  Byte-level encodings are abstracted: a
  read at address `a` yields the stored scalar value, a write at `a` replaces
  it.  All pointer arithmetic of the source (base + index * stride, with
  strides in bytes and element sizes per dtype) is preserved exactly.
* Machine integers are modelled as `Int`/`Nat` with explicit wrap-around
  (`castTo`, `toInt32`) at the points where the source converts or narrows.
* CUDA grids/blocks are sequentialised: a kernel launch folds the per-thread
  work over all blocks and threads.  The per-element writes of distinct
  threads target distinct addresses (the iterator guarantee the spec states
  in section 5), so the sequential order is immaterial; theorems that need
  this take the output-injectivity hypothesis explicitly.
* Fatal `TORCH_INTERNAL_ASSERT`s are modelled with `Except`: a failed
  assertion yields `.error .assertFailed` and aborts the dispatch.
* Components of this repository that are not under `src/` (the
  `TensorIterator` query surface, `OffsetCalculator`, `c10` numeric casts,
  `with_32bit_indexing` splitting, the `Pickler` class) are modelled from the
  spec; each such definition carries a doc comment starting with
  `Modelled from the spec:`.
-/

namespace PTLoops

/-- Memory of one operand: byte address to stored scalar value. -/
abbrev Mem := Int → Int

/-- Store value `v` at address `a`. -/
def Mem.write (m : Mem) (a : Int) (v : Int) : Mem :=
  fun a2 => if a2 = a then v else m a2

@[simp] theorem Mem.write_same (m : Mem) (a : Int) (v : Int) : m.write a v a = v := by
  simp [Mem.write]

theorem Mem.write_other (m : Mem) (a : Int) (v : Int) (a2 : Int) (h : a2 ≠ a) :
    m.write a v a2 = m a2 := by
  simp [Mem.write, h]

/-- Modelled from the spec: the scalar element types the engine dispatches
over (the integral subset of `c10::ScalarType`; floating point types are
outside the shallow embedding). -/
inductive ScalarType where
  | uint8
  | int8
  | int16
  | int32
  | int64
  deriving DecidableEq, Repr

/-- Modelled from the spec: byte size of one element of each scalar type. -/
def ScalarType.esize : ScalarType → Nat
  | .uint8 => 1
  | .int8 => 1
  | .int16 => 2
  | .int32 => 4
  | .int64 => 8

/-- Bit width of each scalar type. -/
def ScalarType.bits : ScalarType → Nat
  | .uint8 => 8
  | .int8 => 8
  | .int16 => 16
  | .int32 => 32
  | .int64 => 64

/-- Whether `t` is an unsigned type. -/
def ScalarType.unsigned : ScalarType → Bool
  | .uint8 => true
  | _ => false

/-- Smallest representable value of `t`. -/
def ScalarType.lo (t : ScalarType) : Int :=
  if t.unsigned then 0 else -(2 ^ (t.bits - 1))

/-- Largest representable value of `t`. -/
def ScalarType.hi (t : ScalarType) : Int :=
  if t.unsigned then 2 ^ t.bits - 1 else 2 ^ (t.bits - 1) - 1

/-- Value `v` is representable in scalar type `t`. -/
def ScalarType.inRange (t : ScalarType) (v : Int) : Prop :=
  t.lo ≤ v ∧ v ≤ t.hi

instance (t : ScalarType) (v : Int) : Decidable (t.inRange v) := by
  unfold ScalarType.inRange; infer_instance

/-- Modelled from the spec: the direct numeric conversion applied by
`c10::fetch_and_cast` / `c10::cast_and_store` and by a plain `static_cast`
between integral scalar types (`c10/util/TypeCast.h`, not under `src/`):
standard modular truncation into the destination type's range. -/
def castTo (t : ScalarType) (v : Int) : Int :=
  if t.unsigned then v % 2 ^ t.bits
  else (v + 2 ^ (t.bits - 1)) % 2 ^ t.bits - 2 ^ (t.bits - 1)

/-- Narrowing conversion from `int64_t` to `int` performed by the source when
it copies the iterator's inner strides into an `int` array. -/
def toInt32 (v : Int) : Int := castTo .int32 v

theorem castTo_inRange (t : ScalarType) (v : Int) : t.inRange (castTo t v) := by
  rcases t <;>
    · simp only [ScalarType.inRange, ScalarType.lo, ScalarType.hi, ScalarType.unsigned,
        ScalarType.bits, castTo]
      norm_num
      omega

theorem castTo_eq_self {t : ScalarType} {v : Int} (h : t.inRange v) : castTo t v = v := by
  simp only [ScalarType.inRange, ScalarType.lo, ScalarType.hi, ScalarType.unsigned,
    ScalarType.bits] at h
  rcases t <;>
    · simp only [castTo, ScalarType.unsigned, ScalarType.bits] at h ⊢
      norm_num at h ⊢
      omega

theorem toInt32_eq_self {v : Int} (h : v.natAbs ≤ 2 ^ 31 - 1) : toInt32 v = v := by
  apply castTo_eq_self
  simp only [ScalarType.inRange, ScalarType.lo, ScalarType.hi, ScalarType.unsigned,
    ScalarType.bits]
  norm_num
  omega

/-- One operand of the iteration: raw memory handle (`base` is the value of
`iter.data_ptr(i)` as a byte address, `mem` the buffer behind it), per
dimension byte strides, element type tag and residency flags.  Operand 0 of
an iterator is the output, the rest are inputs. -/
structure Operand where
  base : Int
  mem : Mem
  strides : List Int
  dtype : ScalarType
  isCuda : Bool
  cpuScalar : Bool

/-- Modelled from the spec: the iterator descriptor collaborator
(`at::TensorIterator`, outside `src/`): shared iteration shape (dimension 0
fastest-varying) plus the operand descriptors. -/
structure TensorIterator where
  shape : List Nat
  ops : List Operand

namespace TensorIterator

/-- Number of operands, `iter.ntensors()`. -/
def ntensors (iter : TensorIterator) : Nat := iter.ops.length

/-- Number of dimensions, `iter.ndim()`. -/
def ndim (iter : TensorIterator) : Nat := iter.shape.length

/-- Total element count, `iter.numel()`. -/
def numel (iter : TensorIterator) : Nat := iter.shape.prod

/-- Modelled from the spec: `iter.is_trivial_1d()` holds for a collapsed
one-dimensional iteration. -/
def is_trivial_1d (iter : TensorIterator) : Bool := iter.ndim = 1

/-- Modelled from the spec: `iter.get_inner_strides()`, the dimension-0 byte
stride of every operand of a trivial 1-d iteration. -/
def get_inner_strides (iter : TensorIterator) : List Int :=
  iter.ops.map (fun op => op.strides.headD 0)

/-- Modelled from the spec: `iter.has_contiguous_first_dim()`: every
operand's dimension-0 stride equals its own element size. -/
def has_contiguous_first_dim (iter : TensorIterator) : Bool :=
  iter.ops.all (fun op => op.strides.headD 0 = (op.dtype.esize : Int))

/-- Modelled from the spec: the maximum absolute byte offset reachable inside
one operand, as used by `can_use_32bit_indexing`. -/
def maxOffsetBound (shape : List Nat) (op : Operand) : Nat :=
  ((shape.zip op.strides).map (fun p => (p.1 - 1) * p.2.natAbs)).sum

/-- Modelled from the spec: `iter.can_use_32bit_indexing()`: the element
count and every reachable per-operand byte offset fit a signed 32-bit
integer. -/
def can_use_32bit_indexing (iter : TensorIterator) : Bool :=
  iter.numel ≤ 2 ^ 31 - 1 &&
    iter.ops.all (fun op => maxOffsetBound iter.shape op ≤ 2 ^ 31 - 1)

/-- Modelled from the spec: `iter.is_cpu_scalar(k)`. -/
def is_cpu_scalar (iter : TensorIterator) (k : Nat) : Bool :=
  match iter.ops.get? k with
  | some op => op.cpuScalar
  | none => false

/-- Modelled from the spec: `iter.scalar_value<T>(k)` reads the host-resident
scalar of operand `k` and converts it to `T` by a direct numeric cast. -/
def scalar_value (iter : TensorIterator) (t : ScalarType) (k : Nat) : Int :=
  match iter.ops.get? k with
  | some op => castTo t (op.mem op.base)
  | none => 0

/-- Modelled from the spec: `iter.remove_operand(k)`. -/
def remove_operand (iter : TensorIterator) (k : Nat) : TensorIterator :=
  { iter with ops := iter.ops.eraseIdx k }

end TensorIterator

/-- Static signature of the dispatched function: per-argument scalar types
and result scalar type (the information `function_traits` extracts at compile
time in the source). -/
structure FuncSig where
  args : List ScalarType
  ret : ScalarType

/-- Arity of the signature. -/
def FuncSig.arity (sig : FuncSig) : Nat := sig.args.length

/-- Static signature of an index-augmented function: scalar types of the
memory-bound arguments (the trailing index argument is not memory-bound) and
the result type. -/
structure IdxFuncSig where
  memArgs : List ScalarType
  ret : ScalarType

/-- Arity as `function_traits` sees it: memory arguments plus the index. -/
def IdxFuncSig.arity (sig : IdxFuncSig) : Nat := sig.memArgs.length + 1

/-- Modelled from the spec: `needs_dynamic_casting<func_t>::check(iter)`
holds when some operand's element type differs from the function's static
type in that slot. -/
def needs_dynamic_casting (sig : FuncSig) (iter : TensorIterator) : Bool :=
  !(iter.ops.map (fun op => op.dtype) == sig.ret :: sig.args)

/-- Modelled from the spec: the Offset Calculator.  Row-major decomposition
of the linear index into per-dimension coordinates (dimension 0 fastest),
then accumulation of `coordinate * stride` over the dimensions; a stride of 0
implements broadcasting.  This is `OffsetCalculator::get` for one operand. -/
def offsetOf (shape : List Nat) (strides : List Int) (idx : Nat) : Int :=
  match shape, strides with
  | e :: es, s :: ss => ((idx % e : Nat) : Int) * s + offsetOf es ss (idx / e)
  | _, _ => 0

/-- Byte address of the output element at logical position `p`. -/
def outAddr (iter : TensorIterator) (p : Nat) : Int :=
  match iter.ops.head? with
  | some op => op.base + offsetOf iter.shape op.strides p
  | none => 0

/-- Launch constant `launch_size_1d = 512` of the source. -/
def launch_size_1d : Nat := 512

/-- Launch constant `launch_size_nd = 128` of the source. -/
def launch_size_nd : Nat := 128

/-- Launch constant `launch_bound2 = 4` of the source. -/
def launch_bound2 : Nat := 4

/-- Hardware warp size entering the `C10_WARP_SIZE * 2` block size of the
contiguous vectorized launch. -/
def warp_size : Nat := 32

/-- Grid size `(N + block * vt - 1) / (block * vt)` computed by both
`launch_kernel` variants. -/
def gridSize (nt vt N : Nat) : Nat := (N + nt * vt - 1) / (nt * vt)

/-- Sequentialised kernel launch: fold the per-thread work over all blocks of
the grid and all threads of each block. -/
def runGrid (nt vt N : Nat) (thread : Nat → Nat → Mem → Mem) (m : Mem) : Mem :=
  (List.range (gridSize nt vt N)).foldl
    (fun m b => (List.range nt).foldl (fun m t => thread b t m) m) m

/-- Result of a dispatch call: the output operand's memory after all enqueued
kernels ran, and the number of kernels enqueued on the stream. -/
structure DState where
  out : Mem
  launches : Nat

/-- Fatal `TORCH_INTERNAL_ASSERT` precondition failure. -/
inductive KernelError where
  | assertFailed
  deriving DecidableEq, Repr

namespace legacy

/-- Model of the `legacy::elementwise_kernel` body for thread `t` of block
`b` (source lines 74-85): `idx = nt*vt*b + t`, then `vt` unrolled steps, each
guarded by `idx < N`, applying `f idx` and advancing `idx` by `nt`. -/
def elementwise_kernel_thread (nt vt N : Nat) (f : Nat → Mem → Mem) (b t : Nat) (m : Mem) :
    Mem :=
  ((List.range vt).foldl
    (fun st _ => if st.1 < N then (st.1 + nt, f st.1 st.2) else st)
    (nt * vt * b + t, m)).2

/-- Full sequentialised run of `legacy::elementwise_kernel` over the grid. -/
def elementwise_kernel (nt vt N : Nat) (f : Nat → Mem → Mem) (m : Mem) : Mem :=
  runGrid nt vt N (elementwise_kernel_thread nt vt N f) m

/-- Model of `legacy::launch_kernel` (source lines 97-108): assert the count
fits a signed 32-bit index, return without any launch when it is zero, else
enqueue one `elementwise_kernel` with the derived grid.  `ideal = true` runs
the launch without the 32-bit assertion; it is used only to express the
hypothetical unsplit dispatch of the splitting claim. -/
def launch_kernel (ideal : Bool) (nt vt : Nat) (N : Nat) (f : Nat → Mem → Mem)
    (s : DState) : Except KernelError DState :=
  if ideal = false ∧ ¬ N ≤ 2 ^ 31 - 1 then .error .assertFailed
  else if N = 0 then .ok s
  else .ok { out := elementwise_kernel nt vt N f s.out, launches := s.launches + 1 }

/-- Model of the non-casting `legacy::invoke` (source lines 110-122):
argument `j` is read as its exact static type from
`data[j] + i * strides[j]`. -/
def invoke (f : List Int → Int) (ins : List Operand) (strides : List Int) (i : Nat) : Int :=
  f ((ins.zip strides).map (fun p => p.1.mem (p.1.base + (i : Int) * p.2)))

/-- Model of the dynamic-casting `legacy::invoke` (source lines 124-136):
argument `j` is fetched from `data[j] + i * strides[j]` as the operand's
dynamic type and converted to the function's static argument type by
`c10::fetch_and_cast` (a direct numeric cast, `castTo`). -/
def invoke_cast (sig : FuncSig) (f : List Int → Int) (ins : List Operand)
    (strides : List Int) (i : Nat) : Int :=
  f (((ins.zip strides).zip sig.args).map
    (fun p => castTo p.2 (p.1.1.mem (p.1.1.base + (i : Int) * p.1.2))))

/-- Model of the non-casting `legacy::invoke_with_index` (source lines
139-152): the linear index is appended as the function's last argument. -/
def invoke_with_index (f : List Int → Nat → Int) (ins : List Operand) (strides : List Int)
    (i : Nat) (idx : Nat) : Int :=
  f ((ins.zip strides).map (fun p => p.1.mem (p.1.base + (i : Int) * p.2))) idx

/-- Model of the casting `legacy::invoke_with_index` (source lines
154-168). -/
def invoke_with_index_cast (sig : IdxFuncSig) (f : List Int → Nat → Int) (ins : List Operand)
    (strides : List Int) (i : Nat) (idx : Nat) : Int :=
  f (((ins.zip strides).zip sig.memArgs).map
    (fun p => castTo p.2 (p.1.1.mem (p.1.1.base + (i : Int) * p.1.2)))) idx

end legacy

namespace modern

/-- Model of the `modern::elementwise_kernel` body for thread `t` of block
`b` (source lines 214-271): compute base pointers from `idx = nt*vt*b + t`,
gather all arguments of the live elements (`idx + nt*i < N`), compute the
function for each, then scatter the results; every pass is guarded by the
same mask.  All argument pointers advance by the element size of the
function's first argument type (`esA`), the result pointer by the element
size of the result type (`esR`). -/
def elementwise_kernel_thread (nt vt N : Nat) (esR : Nat) (outBase : Int) (esA : Nat)
    (ins : List (Int × Mem)) (f : List Int → Int) (b t : Nat) (m : Mem) : Mem :=
  let idx := nt * vt * b + t
  let args : Nat → List Int := fun i =>
    if idx + nt * i < N then
      ins.map (fun q => q.2 (q.1 + ((idx + nt * i : Nat) : Int) * (esA : Int)))
    else []
  let results : Nat → Int := fun i => f (args i)
  (List.range vt).foldl
    (fun m i =>
      if idx + nt * i < N then
        m.write (outBase + ((idx + nt * i : Nat) : Int) * (esR : Int)) (results i)
      else m) m

/-- Full sequentialised run of `modern::elementwise_kernel` over the grid. -/
def elementwise_kernel (nt vt N : Nat) (esR : Nat) (outBase : Int) (esA : Nat)
    (ins : List (Int × Mem)) (f : List Int → Int) (m : Mem) : Mem :=
  runGrid nt vt N (elementwise_kernel_thread nt vt N esR outBase esA ins f) m

/-- Model of `modern::launch_kernel` (source lines 274-285). -/
def launch_kernel (ideal : Bool) (nt vt : Nat) (N : Nat) (esR : Nat) (outBase : Int)
    (esA : Nat) (ins : List (Int × Mem)) (f : List Int → Int) (s : DState) :
    Except KernelError DState :=
  if ideal = false ∧ ¬ N ≤ 2 ^ 31 - 1 then .error .assertFailed
  else if N = 0 then .ok s
  else .ok { out := elementwise_kernel nt vt N esR outBase esA ins f s.out,
             launches := s.launches + 1 }

end modern

/-- Body of the dynamic-casting trivial-1d lambda of `gpu_kernel_impl`
(source lines 317-321): compute the raw output pointer from the inner
strides, invoke through the casting adapter and store through
`c10::cast_and_store` (a direct numeric cast into the output's dynamic
type). -/
def trivialBodyCast (sig : FuncSig) (f : List Int → Int) (out : Operand) (ins : List Operand)
    (strides : List Int) (idx : Nat) (m : Mem) : Mem :=
  m.write (out.base + strides.headD 0 * (idx : Int))
    (castTo out.dtype (legacy.invoke_cast sig f ins strides.tail idx))

/-- Body of the non-casting trivial-1d lambda of `gpu_kernel_impl` (source
lines 325-328). -/
def trivialBodyNoCast (f : List Int → Int) (out : Operand) (ins : List Operand)
    (strides : List Int) (idx : Nat) (m : Mem) : Mem :=
  m.write (out.base + strides.headD 0 * (idx : Int)) (legacy.invoke f ins strides.tail idx)

/-- Per-operand byte offsets produced by the offset calculator at linear
index `idx` (`offset_calc.get(idx)`), restricted to the input operands. -/
def inOffsets (shape : List Nat) (ins : List Operand) (idx : Nat) : List Int :=
  ins.map (fun op => offsetOf shape op.strides idx)

/-- Body of the dynamic-casting multi-dimensional lambda of
`gpu_kernel_impl` (source lines 333-338): offsets come from the offset
calculator and are consumed by `invoke` with index factor 1. -/
def ndBodyCast (sig : FuncSig) (f : List Int → Int) (shape : List Nat) (out : Operand)
    (ins : List Operand) (idx : Nat) (m : Mem) : Mem :=
  m.write (out.base + offsetOf shape out.strides idx)
    (castTo out.dtype (legacy.invoke_cast sig f ins (inOffsets shape ins idx) 1))

/-- Body of the non-casting multi-dimensional lambda of `gpu_kernel_impl`
(source lines 340-344). -/
def ndBodyNoCast (f : List Int → Int) (shape : List Nat) (out : Operand)
    (ins : List Operand) (idx : Nat) (m : Mem) : Mem :=
  m.write (out.base + offsetOf shape out.strides idx)
    (legacy.invoke f ins (inOffsets shape ins idx) 1)

/-- Model of `gpu_kernel_impl` (source lines 289-347): assert 32-bit
indexability and the operand count, then select among the four launch paths
exactly as the source does.  `ideal = true` expresses the hypothetical
dispatch of the splitting claim: the 32-bit assertions are skipped and the
inner strides are used exactly instead of narrowed to `int`. -/
def gpu_kernel_impl (ideal : Bool) (sig : FuncSig) (f : List Int → Int)
    (iter : TensorIterator) (s : DState) : Except KernelError DState :=
  if ideal = false ∧ iter.can_use_32bit_indexing = false then .error .assertFailed
  else if iter.ntensors ≠ sig.arity + 1 then .error .assertFailed
  else
    match iter.ops with
    | [] => .error .assertFailed
    | out :: ins =>
      let numel := iter.numel
      if iter.is_trivial_1d then
        let strides : List Int :=
          if ideal then iter.get_inner_strides else iter.get_inner_strides.map toInt32
        if needs_dynamic_casting sig iter then
          legacy.launch_kernel ideal launch_size_1d 1 numel
            (trivialBodyCast sig f out ins strides) s
        else if iter.has_contiguous_first_dim then
          modern.launch_kernel ideal (warp_size * 2) 4 numel sig.ret.esize out.base
            (sig.args.headD sig.ret).esize (ins.map (fun op => (op.base, op.mem))) f s
        else
          legacy.launch_kernel ideal launch_size_1d 1 numel
            (trivialBodyNoCast f out ins strides) s
      else
        if needs_dynamic_casting sig iter then
          legacy.launch_kernel ideal launch_size_nd launch_bound2 numel
            (ndBodyCast sig f iter.shape out ins) s
        else
          legacy.launch_kernel ideal launch_size_nd launch_bound2 numel
            (ndBodyNoCast f iter.shape out ins) s

/-- Restore a list from its `dropLast` and its last element. -/
theorem dropLast_append_of_getLast? {α : Type} {l : List α} {e : α}
    (h : l.getLast? = some e) : l.dropLast ++ [e] = l := by
  induction l with
  | nil => simp at h
  | cons a l ih =>
    cases l with
    | nil => simp_all [List.getLast?]
    | cons b l =>
      rw [List.getLast?_cons_cons] at h
      simpa using ih h

namespace TensorIterator

/-- Drop the (extent-1) outermost dimension of every operand: the
re-coalescing a sub-iterator undergoes when a dimension can no longer be
split. -/
def dropLastDim (iter : TensorIterator) : TensorIterator :=
  { shape := iter.shape.dropLast,
    ops := iter.ops.map (fun op => { op with strides := op.strides.dropLast }) }

/-- First half of splitting the outermost dimension at `e1`. -/
def firstHalf (iter : TensorIterator) (e1 : Nat) : TensorIterator :=
  { iter with shape := iter.shape.dropLast ++ [e1] }

/-- Second half of splitting the outermost dimension at `e1`: the remaining
extent, with every operand's base advanced by `e1` strides of the split
dimension. -/
def secondHalf (iter : TensorIterator) (e e1 : Nat) : TensorIterator :=
  { shape := iter.shape.dropLast ++ [e - e1],
    ops := iter.ops.map
      (fun op => { op with base := op.base + (e1 : Int) * op.strides.getLastD 0 }) }

/-- Termination measure of the 32-bit split recursion. -/
def splitMeasure (iter : TensorIterator) : Nat := iter.numel + iter.ndim

theorem numel_eq_dropLast_mul {iter : TensorIterator} {e : Nat}
    (h : iter.shape.getLast? = some e) :
    iter.numel = iter.shape.dropLast.prod * e := by
  unfold numel
  conv_lhs => rw [← dropLast_append_of_getLast? h]
  simp

theorem splitMeasure_dropLastDim {iter : TensorIterator}
    (h : iter.shape.getLast? = some 1) :
    splitMeasure (dropLastDim iter) < splitMeasure iter := by
  have hne : iter.shape ≠ [] := by
    intro he; rw [he] at h; simp at h
  have hnum := numel_eq_dropLast_mul h
  have hlen : iter.shape.dropLast.length < iter.shape.length := by
    rw [List.length_dropLast]
    have := List.length_pos.mpr hne
    omega
  unfold splitMeasure dropLastDim numel ndim at *
  simp only at *
  omega

theorem splitMeasure_firstHalf {iter : TensorIterator} {e : Nat}
    (h : iter.shape.getLast? = some e) (he : 2 ≤ e) (hn : iter.numel ≠ 0) :
    splitMeasure (firstHalf iter (e / 2)) < splitMeasure iter := by
  have hnum := numel_eq_dropLast_mul h
  have hrest : iter.shape.dropLast.prod ≠ 0 := by
    intro h0; rw [h0] at hnum; simp at hnum; exact hn hnum
  have hnum2 : (firstHalf iter (e / 2)).numel = iter.shape.dropLast.prod * (e / 2) := by
    unfold firstHalf numel; simp
  have hlen : (firstHalf iter (e / 2)).ndim = iter.shape.dropLast.length + 1 := by
    unfold firstHalf ndim; simp
  have hlen2 : iter.shape.dropLast.length + 1 = iter.shape.length := by
    have hne : iter.shape ≠ [] := by intro hh; rw [hh] at h; simp at h
    rw [List.length_dropLast]
    have := List.length_pos.mpr hne
    omega
  have hmul : iter.shape.dropLast.prod * (e / 2) < iter.shape.dropLast.prod * e :=
    (Nat.mul_lt_mul_left (Nat.pos_of_ne_zero hrest)).mpr (by omega)
  unfold splitMeasure ndim at *
  omega

theorem splitMeasure_secondHalf {iter : TensorIterator} {e : Nat}
    (h : iter.shape.getLast? = some e) (he : 2 ≤ e) (hn : iter.numel ≠ 0) :
    splitMeasure (secondHalf iter e (e / 2)) < splitMeasure iter := by
  have hnum := numel_eq_dropLast_mul h
  have hrest : iter.shape.dropLast.prod ≠ 0 := by
    intro h0; rw [h0] at hnum; simp at hnum; exact hn hnum
  have hnum2 : (secondHalf iter e (e / 2)).numel = iter.shape.dropLast.prod * (e - e / 2) := by
    unfold secondHalf numel; simp
  have hlen : (secondHalf iter e (e / 2)).ndim = iter.shape.dropLast.length + 1 := by
    unfold secondHalf ndim; simp
  have hlen2 : iter.shape.dropLast.length + 1 = iter.shape.length := by
    have hne : iter.shape ≠ [] := by intro hh; rw [hh] at h; simp at h
    rw [List.length_dropLast]
    have := List.length_pos.mpr hne
    omega
  have hmul : iter.shape.dropLast.prod * (e - e / 2) < iter.shape.dropLast.prod * e :=
    (Nat.mul_lt_mul_left (Nat.pos_of_ne_zero hrest)).mpr (by omega)
  unfold splitMeasure ndim at *
  omega

/-- Modelled from the spec: `iter.with_32bit_indexing()` yields a finite
sequence of sub-iterators each satisfying the index-width bound, obtained by
recursively halving the outermost dimension (dropping it when its extent is
1, as sub-iterator re-coalescing does) until every piece can use 32-bit
indexing.  Degenerate descriptors (empty shape or empty space) are returned
unsplit; the dispatch never reaches the split with those. -/
def with_32bit_indexing (iter : TensorIterator) : List TensorIterator :=
  if iter.can_use_32bit_indexing then [iter]
  else if hn : iter.numel = 0 then [iter]
  else
    match h : iter.shape.getLast? with
    | none => [iter]
    | some e =>
      if he : e ≤ 1 then
        if h1 : e = 1 then
          have := splitMeasure_dropLastDim (h1 ▸ h)
          with_32bit_indexing (dropLastDim iter)
        else [iter]
      else
        have h2 : 2 ≤ e := by omega
        have := splitMeasure_firstHalf h h2 hn
        have := splitMeasure_secondHalf h h2 hn
        with_32bit_indexing (firstHalf iter (e / 2)) ++
          with_32bit_indexing (secondHalf iter e (e / 2))
termination_by splitMeasure iter

end TensorIterator

/-- Model of `gpu_kernel` (source lines 349-369) with an explicit recursion
fuel: assert device residency of every operand, short-circuit the empty
space, split when 32-bit indexing is impossible and recurse sequentially over
the sub-iterators, else run `gpu_kernel_impl`.  The fuel only bounds the
recursion depth through the split; every sub-iterator the split yields
satisfies the 32-bit bound, so any fuel of at least 2 behaves identically and
the wrapper below never exhausts it. -/
def gpu_kernel_fuel (sig : FuncSig) (f : List Int → Int) :
    Nat → TensorIterator → DState → Except KernelError DState
  | 0, _, _ => .error .assertFailed
  | fuel + 1, iter, s =>
    if ¬ iter.ops.all (fun op => op.isCuda) then .error .assertFailed
    else if iter.numel = 0 then .ok s
    else if iter.can_use_32bit_indexing = false then
      iter.with_32bit_indexing.foldlM (fun s sub => gpu_kernel_fuel sig f fuel sub s) s
    else gpu_kernel_impl false sig f iter s

/-- Public value-returning dispatch entry point `gpu_kernel`. -/
def gpu_kernel (sig : FuncSig) (f : List Int → Int) (iter : TensorIterator)
    (s : DState) : Except KernelError DState :=
  gpu_kernel_fuel sig f (iter.numel + 2) iter s

/-- Model of `gpu_kernel_with_scalars` (source lines 371-400): requires
exactly 3 operands and a binary function; a host-resident scalar input is
read out, removed from the iterator, and captured as the corresponding
argument of a derived unary closure dispatched through `gpu_kernel`. -/
def gpu_kernel_with_scalars (sig : FuncSig) (f : List Int → Int)
    (iter : TensorIterator) (s : DState) : Except KernelError DState :=
  if iter.ntensors ≠ 3 then .error .assertFailed
  else if sig.args.length ≠ 2 then .error .assertFailed
  else
    let a1 := sig.args.headD sig.ret
    let a2 := (sig.args.get? 1).getD sig.ret
    if iter.is_cpu_scalar 1 then
      let a := iter.scalar_value a1 1
      gpu_kernel { args := [a2], ret := sig.ret } (fun bs => f (a :: bs))
        (iter.remove_operand 1) s
    else if iter.is_cpu_scalar 2 then
      let b := iter.scalar_value a2 2
      gpu_kernel { args := [a1], ret := sig.ret } (fun as2 => f (as2 ++ [b]))
        (iter.remove_operand 2) s
    else gpu_kernel sig f iter s

/-- Modelled from the spec: `needs_dynamic_casting` for the index-augmented
path compares the operands' element types against the function's
memory-bound static types and its result type. -/
def needs_dynamic_casting_idx (sig : IdxFuncSig) (iter : TensorIterator) : Bool :=
  !(iter.ops.map (fun op => op.dtype) == sig.ret :: sig.memArgs)

/-- Body of the casting trivial-1d lambda of `gpu_kernel_with_index_impl`
(source lines 429-433). -/
def trivialBodyIdxCast (sig : IdxFuncSig) (f : List Int → Nat → Int) (out : Operand)
    (ins : List Operand) (strides : List Int) (idx : Nat) (m : Mem) : Mem :=
  m.write (out.base + strides.headD 0 * (idx : Int))
    (castTo out.dtype (legacy.invoke_with_index_cast sig f ins strides.tail idx idx))

/-- Body of the non-casting trivial-1d lambda of `gpu_kernel_with_index_impl`
(source lines 435-438). -/
def trivialBodyIdxNoCast (f : List Int → Nat → Int) (out : Operand)
    (ins : List Operand) (strides : List Int) (idx : Nat) (m : Mem) : Mem :=
  m.write (out.base + strides.headD 0 * (idx : Int))
    (legacy.invoke_with_index f ins strides.tail idx idx)

/-- Body of the casting multi-dimensional lambda of
`gpu_kernel_with_index_impl` (source lines 443-448). -/
def ndBodyIdxCast (sig : IdxFuncSig) (f : List Int → Nat → Int) (shape : List Nat)
    (out : Operand) (ins : List Operand) (idx : Nat) (m : Mem) : Mem :=
  m.write (out.base + offsetOf shape out.strides idx)
    (castTo out.dtype (legacy.invoke_with_index_cast sig f ins (inOffsets shape ins idx) 1 idx))

/-- Body of the non-casting multi-dimensional lambda of
`gpu_kernel_with_index_impl` (source lines 450-454). -/
def ndBodyIdxNoCast (f : List Int → Nat → Int) (shape : List Nat) (out : Operand)
    (ins : List Operand) (idx : Nat) (m : Mem) : Mem :=
  m.write (out.base + offsetOf shape out.strides idx)
    (legacy.invoke_with_index f ins (inOffsets shape ins idx) 1 idx)

/-- Model of `gpu_kernel_with_index_impl` (source lines 402-457): the
operand count must equal the function's arity exactly (the output slot is
paid for by the index argument), and there is no contiguous vectorized
branch. -/
def gpu_kernel_with_index_impl (sig : IdxFuncSig) (f : List Int → Nat → Int)
    (iter : TensorIterator) (s : DState) : Except KernelError DState :=
  if iter.ntensors ≠ sig.arity then .error .assertFailed
  else
    match iter.ops with
    | [] => .error .assertFailed
    | out :: ins =>
      let numel := iter.numel
      if iter.is_trivial_1d then
        let strides := iter.get_inner_strides.map toInt32
        if needs_dynamic_casting_idx sig iter then
          legacy.launch_kernel false launch_size_1d 1 numel
            (trivialBodyIdxCast sig f out ins strides) s
        else
          legacy.launch_kernel false launch_size_1d 1 numel
            (trivialBodyIdxNoCast f out ins strides) s
      else
        if needs_dynamic_casting_idx sig iter then
          legacy.launch_kernel false launch_size_nd launch_bound2 numel
            (ndBodyIdxCast sig f iter.shape out ins) s
        else
          legacy.launch_kernel false launch_size_nd launch_bound2 numel
            (ndBodyIdxNoCast f iter.shape out ins) s

/-- Model of `gpu_kernel_with_index` (source lines 459-476): device check,
empty-space short circuit, then a fatal assertion — not a split — when the
space cannot use 32-bit indexing. -/
def gpu_kernel_with_index (sig : IdxFuncSig) (f : List Int → Nat → Int)
    (iter : TensorIterator) (s : DState) : Except KernelError DState :=
  if ¬ iter.ops.all (fun op => op.isCuda) then .error .assertFailed
  else if iter.numel = 0 then .ok s
  else if iter.can_use_32bit_indexing = false then .error .assertFailed
  else gpu_kernel_with_index_impl sig f iter s

/-! ### Index coverage of the launch geometry -/

/-- Linear element indices visited from start index `idx0` in `cnt` steps of
stride `nt`, keeping only those below `N`. -/
def idxFrom (nt N idx0 cnt : Nat) : List Nat :=
  (List.range cnt).filterMap
    (fun i => if idx0 + nt * i < N then some (idx0 + nt * i) else none)

/-- Linear element indices processed by thread `t` of block `b`: start index
`nt*vt*b + t`, `vt` elements, stride `nt`. -/
def threadIdxList (nt vt N b t : Nat) : List Nat :=
  idxFrom nt N (nt * vt * b + t) vt

/-- Linear element indices processed by the whole grid, in sequential
execution order. -/
def gridIdxList (nt vt N : Nat) : List Nat :=
  (List.range (gridSize nt vt N)).bind
    (fun b => (List.range nt).bind (fun t => threadIdxList nt vt N b t))

theorem idxFrom_succ (nt N idx0 cnt : Nat) :
    idxFrom nt N idx0 (cnt + 1) =
      (if idx0 < N then [idx0] else []) ++ idxFrom nt N (idx0 + nt) cnt := by
  unfold idxFrom
  rw [List.range_succ_eq_map, List.filterMap_cons, List.filterMap_map]
  have hfun : ∀ i : Nat,
      (fun i => if idx0 + nt * i < N then some (idx0 + nt * i) else none) (Nat.succ i) =
      (fun i => if idx0 + nt + nt * i < N then some (idx0 + nt + nt * i) else none) i := by
    intro i
    have : idx0 + nt * (i + 1) = idx0 + nt + nt * i := by ring
    simp only [Nat.succ_eq_add_one, this]
  rw [show ((fun i => if idx0 + nt * i < N then some (idx0 + nt * i) else none) ∘ Nat.succ) =
      (fun i => if idx0 + nt + nt * i < N then some (idx0 + nt + nt * i) else none) from
    funext hfun]
  by_cases h : idx0 < N <;> simp [h]

theorem mem_idxFrom {nt N idx0 cnt x : Nat} :
    x ∈ idxFrom nt N idx0 cnt ↔ ∃ i, i < cnt ∧ x = idx0 + nt * i ∧ x < N := by
  unfold idxFrom
  simp only [List.mem_filterMap, List.mem_range]
  constructor
  · rintro ⟨i, hi, hx⟩
    by_cases h : idx0 + nt * i < N
    · simp only [h, if_true, Option.some.injEq] at hx
      exact ⟨i, hi, hx.symm, hx ▸ h⟩
    · simp [h] at hx
  · rintro ⟨i, hi, hx, hlt⟩
    exact ⟨i, hi, by simp [hx ▸ hlt, hx]⟩

theorem idxFrom_dead {nt N idx0 cnt : Nat} (h : N ≤ idx0) : idxFrom nt N idx0 cnt = [] := by
  rw [List.eq_nil_iff_forall_not_mem]
  intro x hx
  rcases mem_idxFrom.mp hx with ⟨i, _, hxe, hxl⟩
  omega

/-- Elements of `idxFrom` are below `N` and of the arithmetic-progression
form. -/
theorem idxFrom_lt {nt N idx0 cnt x : Nat} (h : x ∈ idxFrom nt N idx0 cnt) : x < N := by
  rcases mem_idxFrom.mp h with ⟨i, _, _, hxl⟩
  exact hxl

/-- Fold over a bind is the nested fold. -/
theorem foldl_list_bind {α β σ : Type} (l : List α) (f : α → List β) (g : σ → β → σ)
    (s : σ) : (l.bind f).foldl g s = l.foldl (fun s a => (f a).foldl g s) s := by
  induction l generalizing s with
  | nil => rfl
  | cons a l ih => simp [List.foldl_append, ih]

/-- One write per index over a list of indices. -/
def writeRun (A : Nat → Int) (V : Nat → Int) (L : List Nat) (m : Mem) : Mem :=
  L.foldl (fun m idx => m.write (A idx) (V idx)) m

theorem writeRun_cons (A V : Nat → Int) (q : Nat) (L : List Nat) (m : Mem) :
    writeRun A V (q :: L) m = writeRun A V L (m.write (A q) (V q)) := rfl

theorem writeRun_not_covered {A V : Nat → Int} {L : List Nat} {m : Mem} {a : Int}
    (h : ∀ p ∈ L, a ≠ A p) : writeRun A V L m a = m a := by
  induction L generalizing m with
  | nil => rfl
  | cons q L ih =>
    rw [writeRun_cons, ih (fun p hp => h p (List.mem_cons_of_mem _ hp))]
    exact Mem.write_other _ _ _ _ (h q (List.mem_cons_self _ _))

theorem writeRun_covered {A V : Nat → Int} {L : List Nat} {m : Mem} {p : Nat}
    (hinj : ∀ x ∈ L, ∀ y ∈ L, A x = A y → x = y) (hp : p ∈ L) :
    writeRun A V L m (A p) = V p := by
  induction L generalizing m with
  | nil => simp at hp
  | cons q L ih =>
    rw [writeRun_cons]
    by_cases hptl : p ∈ L
    · exact ih (fun x hx y hy => hinj x (List.mem_cons_of_mem _ hx) y
        (List.mem_cons_of_mem _ hy)) hptl
    · have hpq : p = q := by
        rcases List.mem_cons.mp hp with h | h
        · exact h
        · exact absurd h hptl
      subst hpq
      rw [writeRun_not_covered]
      · exact Mem.write_same _ _ _
      · intro x hx hax
        exact hptl ((hinj x (List.mem_cons_of_mem _ hx) p (List.mem_cons_self _ _)
          hax.symm) ▸ hx)

/-- Guarded stride-`nt` fold over `range cnt` is the plain fold over
`idxFrom`. -/
theorem foldl_range_guard (nt N : Nat) (g : Nat → Mem → Mem) :
    ∀ (cnt idx0 : Nat) (m : Mem),
      (List.range cnt).foldl
        (fun m i => if idx0 + nt * i < N then g (idx0 + nt * i) m else m) m =
      (idxFrom nt N idx0 cnt).foldl (fun m p => g p m) m := by
  intro cnt
  induction cnt with
  | zero => intro idx0 m; rfl
  | succ cnt ih =>
    intro idx0 m
    rw [List.range_succ_eq_map, List.foldl_cons, List.foldl_map, idxFrom_succ]
    have hfun : (fun (m : Mem) (i : Nat) =>
        if idx0 + nt * Nat.succ i < N then g (idx0 + nt * Nat.succ i) m else m) =
        (fun (m : Mem) (i : Nat) =>
        if idx0 + nt + nt * i < N then g (idx0 + nt + nt * i) m else m) := by
      funext m i
      have : idx0 + nt * (i + 1) = idx0 + nt + nt * i := by ring
      simp only [Nat.succ_eq_add_one, this]
    rw [hfun]
    by_cases h : idx0 < N
    · simp only [Nat.mul_zero, Nat.add_zero, h, if_true, List.cons_append, List.nil_append,
        List.foldl_cons]
      exact ih (idx0 + nt) (g idx0 m)
    · simp only [Nat.mul_zero, Nat.add_zero, h, if_false, List.nil_append]
      exact ih (idx0 + nt) m

/-- A fold that ignores the list elements is an iteration of length the
list's length; stated for `range` as the legacy kernel uses it. -/
theorem foldl_range_ignore_eq_iterate {σ : Type} (u : σ → σ) :
    ∀ (cnt : Nat) (init : σ),
      (List.range cnt).foldl (fun st _ => u st) init = u^[cnt] init := by
  intro cnt
  induction cnt with
  | zero => intro init; rfl
  | succ cnt ih =>
    intro init
    rw [List.range_succ, List.foldl_append, ih, List.foldl_cons, List.foldl_nil,
      Function.iterate_succ_apply']

/-- The stateful per-thread loop of the legacy kernel visits exactly the
`idxFrom` indices in order. -/
theorem legacy_loop_eq_foldl (nt N : Nat) (f : Nat → Mem → Mem) :
    ∀ (cnt idx0 : Nat) (m : Mem),
      ((fun (st : Nat × Mem) =>
          if st.1 < N then (st.1 + nt, f st.1 st.2) else st)^[cnt] (idx0, m)).2 =
      (idxFrom nt N idx0 cnt).foldl (fun m p => f p m) m := by
  intro cnt
  induction cnt with
  | zero => intro idx0 m; rfl
  | succ cnt ih =>
    intro idx0 m
    rw [Function.iterate_succ_apply, idxFrom_succ]
    by_cases h : idx0 < N
    · simp only [h, if_true, List.cons_append, List.nil_append, List.foldl_cons]
      exact ih (idx0 + nt) (f idx0 m)
    · simp only [h, if_false, List.nil_append]
      rw [ih idx0 m, idxFrom_dead (Nat.not_lt.mp h),
        idxFrom_dead (show N ≤ idx0 + nt by omega)]

/-- Per-thread legacy kernel body as a fold over its index list. -/
theorem legacy_thread_eq_foldl (nt vt N : Nat) (f : Nat → Mem → Mem) (b t : Nat) (m : Mem) :
    legacy.elementwise_kernel_thread nt vt N f b t m =
      (threadIdxList nt vt N b t).foldl (fun m p => f p m) m := by
  unfold legacy.elementwise_kernel_thread threadIdxList
  rw [foldl_range_ignore_eq_iterate
    (fun (st : Nat × Mem) => if st.1 < N then (st.1 + nt, f st.1 st.2) else st) vt
    (nt * vt * b + t, m)]
  exact legacy_loop_eq_foldl nt N f vt (nt * vt * b + t) m

/-- The full legacy kernel run is the fold of its body over the grid's index
list. -/
theorem legacy_kernel_eq_foldl (nt vt N : Nat) (f : Nat → Mem → Mem) (m : Mem) :
    legacy.elementwise_kernel nt vt N f m =
      (gridIdxList nt vt N).foldl (fun m p => f p m) m := by
  unfold legacy.elementwise_kernel runGrid gridIdxList
  rw [foldl_list_bind]
  congr 1
  funext m b
  rw [foldl_list_bind]
  congr 1
  funext m t
  exact legacy_thread_eq_foldl nt vt N f b t m

theorem t_add_mul_lt {nt vt t i : Nat} (ht : t < nt) (hi : i < vt) :
    t + nt * i < nt * vt := by
  have h1 : nt * (i + 1) ≤ nt * vt := Nat.mul_le_mul_left nt hi
  have h2 : nt * (i + 1) = nt * i + nt := by ring
  rw [h2] at h1
  set a := nt * i with ha
  set c := nt * vt with hc
  omega

/-- Uniqueness of the block/thread/step decomposition of a linear index. -/
theorem idx_decomp_unique {nt vt b t i b2 t2 i2 : Nat}
    (ht : t < nt) (ht2 : t2 < nt) (hi : i < vt) (hi2 : i2 < vt)
    (heq : nt * vt * b + t + nt * i = nt * vt * b2 + t2 + nt * i2) :
    b = b2 ∧ t = t2 ∧ i = i2 := by
  have hnt : 0 < nt := by omega
  have hnv : 0 < nt * vt := Nat.mul_pos (by omega) (by omega)
  have hr : t + nt * i < nt * vt := t_add_mul_lt ht hi
  have hr2 : t2 + nt * i2 < nt * vt := t_add_mul_lt ht2 hi2
  have heq2 : t + nt * i + nt * vt * b = t2 + nt * i2 + nt * vt * b2 := by
    calc t + nt * i + nt * vt * b = nt * vt * b + t + nt * i := by ring
    _ = nt * vt * b2 + t2 + nt * i2 := heq
    _ = t2 + nt * i2 + nt * vt * b2 := by ring
  have hb : b = b2 := by
    have d1 : (t + nt * i + nt * vt * b) / (nt * vt) = b := by
      rw [Nat.add_mul_div_left _ _ hnv, Nat.div_eq_of_lt hr, Nat.zero_add]
    have d2 : (t2 + nt * i2 + nt * vt * b2) / (nt * vt) = b2 := by
      rw [Nat.add_mul_div_left _ _ hnv, Nat.div_eq_of_lt hr2, Nat.zero_add]
    rw [← d1, ← d2, heq2]
  have hrr : t + nt * i = t2 + nt * i2 := by
    have d1 : (t + nt * i + nt * vt * b) % (nt * vt) = t + nt * i := by
      rw [Nat.add_mul_mod_self_left, Nat.mod_eq_of_lt hr]
    have d2 : (t2 + nt * i2 + nt * vt * b2) % (nt * vt) = t2 + nt * i2 := by
      rw [Nat.add_mul_mod_self_left, Nat.mod_eq_of_lt hr2]
    rw [← d1, ← d2, heq2]
  have htt : t = t2 := by
    have d1 : (t + nt * i) % nt = t := by
      rw [Nat.add_mul_mod_self_left, Nat.mod_eq_of_lt ht]
    have d2 : (t2 + nt * i2) % nt = t2 := by
      rw [Nat.add_mul_mod_self_left, Nat.mod_eq_of_lt ht2]
    rw [← d1, ← d2, hrr]
  have hii : i = i2 := by
    have d1 : (t + nt * i) / nt = i := by
      rw [Nat.add_mul_div_left _ _ (by omega : 0 < nt), Nat.div_eq_of_lt ht, Nat.zero_add]
    have d2 : (t2 + nt * i2) / nt = i2 := by
      rw [Nat.add_mul_div_left _ _ (by omega : 0 < nt), Nat.div_eq_of_lt ht2, Nat.zero_add]
    rw [← d1, ← d2, hrr]
  exact ⟨hb, htt, hii⟩

/-- The grid size covers the element count. -/
theorem le_gridSize_mul (nt vt N : Nat) (hnv : 0 < nt * vt) :
    N ≤ gridSize nt vt N * (nt * vt) := by
  rcases Nat.eq_zero_or_pos N with h0 | hN
  · simp [h0]
  · unfold gridSize
    rw [mul_comm]
    have hqr := Nat.div_add_mod (N + nt * vt - 1) (nt * vt)
    have hrlt : (N + nt * vt - 1) % (nt * vt) < nt * vt := Nat.mod_lt _ hnv
    set nv := nt * vt with hnv2
    set q := (N + nv - 1) / nv with hq
    set r := (N + nv - 1) % nv with hr
    set M := nv * q with hM
    omega

theorem mem_threadIdxList {nt vt N b t x : Nat} :
    x ∈ threadIdxList nt vt N b t ↔
      ∃ i, i < vt ∧ x = nt * vt * b + t + nt * i ∧ x < N := by
  unfold threadIdxList
  exact mem_idxFrom

/-- The grid's index list contains exactly the indices below `N`. -/
theorem mem_gridIdxList {nt vt N x : Nat} (hnt : 0 < nt) (hvt : 0 < vt) :
    x ∈ gridIdxList nt vt N ↔ x < N := by
  unfold gridIdxList
  simp only [List.mem_bind, List.mem_range]
  constructor
  · rintro ⟨b, _, t, _, hx⟩
    rcases mem_threadIdxList.mp hx with ⟨i, _, _, hlt⟩
    exact hlt
  · intro hx
    have hnv : 0 < nt * vt := Nat.mul_pos hnt hvt
    refine ⟨x / (nt * vt), ?_, (x % (nt * vt)) % nt, Nat.mod_lt _ hnt, ?_⟩
    · rw [Nat.div_lt_iff_lt_mul hnv]
      exact Nat.lt_of_lt_of_le hx (le_gridSize_mul nt vt N hnv)
    · refine mem_threadIdxList.mpr ⟨(x % (nt * vt)) / nt, ?_, ?_, hx⟩
      · rw [Nat.div_lt_iff_lt_mul hnt, mul_comm vt nt]
        exact Nat.mod_lt _ hnv
      · have e1 := Nat.div_add_mod x (nt * vt)
        have e2 := Nat.div_add_mod (x % (nt * vt)) nt
        set P1 := nt * vt * (x / (nt * vt)) with hP1
        set P2 := nt * ((x % (nt * vt)) / nt) with hP2
        omega

/-- Replacing the written values pointwise on the list leaves the run
unchanged. -/
theorem writeRun_congr_V {A V V2 : Nat → Int} {L : List Nat} {m : Mem}
    (h : ∀ p ∈ L, V p = V2 p) : writeRun A V L m = writeRun A V2 L m := by
  induction L generalizing m with
  | nil => rfl
  | cons q L ih =>
    rw [writeRun_cons, writeRun_cons, h q (List.mem_cons_self _ _),
      ih (fun p hp => h p (List.mem_cons_of_mem _ hp))]

/-- Pointwise characterization of a legacy kernel run whose body is a single
write at a per-index address: every covered position holds its value, all
other addresses are untouched. -/
theorem legacy_kernel_char (nt vt N : Nat) (hnt : 0 < nt) (hvt : 0 < vt)
    (A V : Nat → Int) (m : Mem)
    (hinj : ∀ p, p < N → ∀ q, q < N → A p = A q → p = q) :
    (∀ p, p < N →
      legacy.elementwise_kernel nt vt N (fun idx m => m.write (A idx) (V idx)) m (A p) = V p) ∧
    (∀ a : Int, (∀ p, p < N → a ≠ A p) →
      legacy.elementwise_kernel nt vt N (fun idx m => m.write (A idx) (V idx)) m a = m a) := by
  have he : legacy.elementwise_kernel nt vt N (fun idx m => m.write (A idx) (V idx)) m =
      writeRun A V (gridIdxList nt vt N) m :=
    legacy_kernel_eq_foldl nt vt N _ m
  constructor
  · intro p hp
    rw [he]
    exact writeRun_covered
      (fun x hx y hy => hinj x ((mem_gridIdxList hnt hvt).mp hx) y
        ((mem_gridIdxList hnt hvt).mp hy))
      ((mem_gridIdxList hnt hvt).mpr hp)
  · intro a ha
    rw [he]
    exact writeRun_not_covered (fun p hp => ha p ((mem_gridIdxList hnt hvt).mp hp))

/-- Gathered argument values of the modern kernel at linear position `p`. -/
def modernGather (esA : Nat) (ins : List (Int × Mem)) (p : Nat) : List Int :=
  ins.map (fun q => q.2 (q.1 + (p : Int) * (esA : Int)))

/-- The modern kernel thread is the plain write fold over its index list:
the gather/compute/scatter passes collapse because the inputs are distinct
buffers from the output. -/
theorem modern_thread_eq_foldl (nt vt N esR : Nat) (outBase : Int) (esA : Nat)
    (ins : List (Int × Mem)) (f : List Int → Int) (b t : Nat) (m : Mem) :
    modern.elementwise_kernel_thread nt vt N esR outBase esA ins f b t m =
      (threadIdxList nt vt N b t).foldl
        (fun m p => m.write (outBase + (p : Int) * (esR : Int))
          (f (modernGather esA ins p))) m := by
  unfold modern.elementwise_kernel_thread threadIdxList
  have hfun : (fun (m : Mem) (i : Nat) =>
      if nt * vt * b + t + nt * i < N then
        m.write (outBase + ((nt * vt * b + t + nt * i : Nat) : Int) * (esR : Int))
          (f (if nt * vt * b + t + nt * i < N then
            ins.map (fun q => q.2 (q.1 + ((nt * vt * b + t + nt * i : Nat) : Int) *
              (esA : Int)))
          else []))
      else m) =
      (fun (m : Mem) (i : Nat) =>
      if nt * vt * b + t + nt * i < N then
        m.write (outBase + ((nt * vt * b + t + nt * i : Nat) : Int) * (esR : Int))
          (f (modernGather esA ins (nt * vt * b + t + nt * i)))
      else m) := by
    funext m i
    by_cases h : nt * vt * b + t + nt * i < N <;> simp [h, modernGather]
  simp only []
  rw [hfun]
  exact foldl_range_guard nt N
    (fun p m => m.write (outBase + (p : Int) * (esR : Int)) (f (modernGather esA ins p)))
    vt (nt * vt * b + t) m

/-- The full modern kernel run as the write fold over the grid's index
list. -/
theorem modern_kernel_eq_foldl (nt vt N esR : Nat) (outBase : Int) (esA : Nat)
    (ins : List (Int × Mem)) (f : List Int → Int) (m : Mem) :
    modern.elementwise_kernel nt vt N esR outBase esA ins f m =
      writeRun (fun p => outBase + (p : Int) * (esR : Int))
        (fun p => f (modernGather esA ins p)) (gridIdxList nt vt N) m := by
  unfold modern.elementwise_kernel runGrid writeRun gridIdxList
  rw [foldl_list_bind]
  congr 1
  funext m b
  rw [foldl_list_bind]
  congr 1
  funext m t
  exact modern_thread_eq_foldl nt vt N esR outBase esA ins f b t m

/-! ### Pointwise specification of a dispatch -/

/-- Argument values of the pointwise specification at logical position `p`:
each input element, read at its broadcast offset and converted to the
function's static argument type. -/
def expectedArgs (args : List ScalarType) (shape : List Nat) (ins : List Operand)
    (p : Nat) : List Int :=
  (ins.zip args).map
    (fun q => castTo q.2 (q.1.mem (q.1.base + offsetOf shape q.1.strides p)))

/-- Raw (exact-type) argument values of the pointwise specification. -/
def rawReadArgs (shape : List Nat) (ins : List Operand) (p : Nat) : List Int :=
  ins.map (fun op => op.mem (op.base + offsetOf shape op.strides p))

/-- Value the spec demands at logical position `p` of the output: the
function applied to the broadcast input elements (converted to its static
argument types), converted into the output operand's element type. -/
def expected (sig : FuncSig) (f : List Int → Int) (iter : TensorIterator) (p : Nat) : Int :=
  match iter.ops with
  | [] => 0
  | out :: ins => castTo out.dtype (f (expectedArgs sig.args iter.shape ins p))

/-- Structural well-formedness the iterator collaborator guarantees: operand
count matching the function arity, and per-operand stride vectors of the
iteration rank. -/
def WF (sig : FuncSig) (iter : TensorIterator) : Prop :=
  iter.ntensors = sig.arity + 1 ∧ ∀ op ∈ iter.ops, op.strides.length = iter.ndim

/-- The iterator guarantee of section 5 of the spec: output elements of
distinct logical positions live at distinct addresses. -/
def OutInj (iter : TensorIterator) : Prop :=
  ∀ p, p < iter.numel → ∀ q, q < iter.numel → outAddr iter p = outAddr iter q → p = q

/-- Every input buffer stores values representable in its element type. -/
def InsTyped (iter : TensorIterator) : Prop :=
  ∀ op ∈ iter.ops.tail, ∀ a : Int, op.dtype.inRange (op.mem a)

/-- The function's results are representable in its static result type. -/
def RetTyped (sig : FuncSig) (f : List Int → Int) : Prop :=
  ∀ l : List Int, sig.ret.inRange (f l)

/-- Condition under which the contiguous vectorized kernel's documented
assumption (all argument types identical) is met whenever that path can be
selected. -/
def VecSafe (sig : FuncSig) (iter : TensorIterator) : Prop :=
  (∀ t2 ∈ sig.args, t2 = sig.args.headD sig.ret) ∨
    needs_dynamic_casting sig iter = true ∨
    iter.has_contiguous_first_dim = false

/-! ### Address and value correspondence of the dispatch bodies -/

theorem offsetOf_single {e : Nat} {s : Int} {p : Nat} (hp : p < e) :
    offsetOf [e] [s] p = (p : Int) * s := by
  unfold offsetOf
  rw [Nat.mod_eq_of_lt hp]
  simp [offsetOf]

theorem maxOffsetBound_single {sh : List Nat} {e : Nat} {op : Operand} {s : Int}
    (hsh : sh = [e]) (hst : op.strides = [s]) :
    TensorIterator.maxOffsetBound sh op = (e - 1) * s.natAbs := by
  subst hsh
  simp [TensorIterator.maxOffsetBound, hst]

/-- Narrowing the inner stride to `int` does not change the product with any
in-range index, thanks to the 32-bit offset bound. -/
theorem stride_mul_eq {e : Nat} {s : Int} {p : Nat} (hp : p < e)
    (hb : (e - 1) * s.natAbs ≤ 2 ^ 31 - 1) :
    (p : Int) * toInt32 s = (p : Int) * s := by
  rcases Nat.eq_zero_or_pos p with h0 | hpos
  · subst h0; simp
  · have he2 : 2 ≤ e := by omega
    have hs : s.natAbs ≤ (e - 1) * s.natAbs := Nat.le_mul_of_pos_left _ (by omega)
    rw [toInt32_eq_self (by omega)]

/-- Casting-adapter argument list over transformed inner strides equals the
pointwise-spec argument list. -/
theorem invoke_cast_list_eq {shape : List Nat} {p : Nat} (g : Int → Int) :
    ∀ (ins : List Operand) (args : List ScalarType),
      (∀ op ∈ ins, (p : Int) * g (op.strides.headD 0) = offsetOf shape op.strides p) →
      ((ins.zip ((ins.map (fun op => op.strides.headD 0)).map g)).zip args).map
          (fun q => castTo q.2 (q.1.1.mem (q.1.1.base + (p : Int) * q.1.2))) =
        expectedArgs args shape ins p := by
  intro ins
  induction ins with
  | nil => intro args _; rfl
  | cons op rest ih =>
    intro args hg
    cases args with
    | nil => rfl
    | cons a args2 =>
      unfold expectedArgs at *
      simp only [List.zip, List.map_cons, List.zipWith_cons_cons, List.map] at ih ⊢
      rw [hg op (List.mem_cons_self _ _),
        ih args2 (fun op2 h2 => hg op2 (List.mem_cons_of_mem _ h2))]

/-- Non-casting-adapter argument list over transformed inner strides equals
the raw pointwise-spec argument list. -/
theorem invoke_list_eq {shape : List Nat} {p : Nat} (g : Int → Int) :
    ∀ (ins : List Operand),
      (∀ op ∈ ins, (p : Int) * g (op.strides.headD 0) = offsetOf shape op.strides p) →
      (ins.zip ((ins.map (fun op => op.strides.headD 0)).map g)).map
          (fun q => q.1.mem (q.1.base + (p : Int) * q.2)) =
        rawReadArgs shape ins p := by
  intro ins
  induction ins with
  | nil => intro _; rfl
  | cons op rest ih =>
    intro hg
    unfold rawReadArgs at *
    simp only [List.zip, List.map_cons, List.zipWith_cons_cons, List.map] at ih ⊢
    rw [hg op (List.mem_cons_self _ _),
      ih (fun op2 h2 => hg op2 (List.mem_cons_of_mem _ h2))]

/-- Casting-adapter argument list over offset-calculator offsets equals the
pointwise-spec argument list. -/
theorem invoke_cast_nd_list_eq {shape : List Nat} {p : Nat} :
    ∀ (ins : List Operand) (args : List ScalarType),
      ((ins.zip (inOffsets shape ins p)).zip args).map
          (fun q => castTo q.2 (q.1.1.mem (q.1.1.base + (1 : Int) * q.1.2))) =
        expectedArgs args shape ins p := by
  intro ins
  induction ins with
  | nil => intro args; rfl
  | cons op rest ih =>
    intro args
    cases args with
    | nil => rfl
    | cons a args2 =>
      unfold expectedArgs inOffsets at *
      simp only [List.zip, List.map_cons, List.zipWith_cons_cons, List.map, one_mul] at ih ⊢
      rw [ih args2]

/-- Non-casting-adapter argument list over offset-calculator offsets equals
the raw pointwise-spec argument list. -/
theorem invoke_nd_list_eq {shape : List Nat} {p : Nat} :
    ∀ (ins : List Operand),
      (ins.zip (inOffsets shape ins p)).map
          (fun q => q.1.mem (q.1.base + (1 : Int) * q.2)) =
        rawReadArgs shape ins p := by
  intro ins
  induction ins with
  | nil => rfl
  | cons op rest ih =>
    unfold rawReadArgs inOffsets at *
    simp only [List.zip, List.map_cons, List.zipWith_cons_cons, List.map, one_mul] at ih ⊢
    rw [ih]

/-- When no dynamic casting is needed and buffers are well-typed, the
converted argument list degenerates to the raw reads. -/
theorem expectedArgs_eq_raw {shape : List Nat} {p : Nat} :
    ∀ (ins : List Operand) (args : List ScalarType),
      ins.map (fun op => op.dtype) = args →
      (∀ op ∈ ins, ∀ a : Int, op.dtype.inRange (op.mem a)) →
      expectedArgs args shape ins p = rawReadArgs shape ins p := by
  intro ins
  induction ins with
  | nil => intro args _ _; subst args; rfl
  | cons op rest ih =>
    intro args hdt hmem
    subst hdt
    unfold expectedArgs rawReadArgs at *
    simp only [List.zip, List.map_cons, List.zipWith_cons_cons, List.map] at ih ⊢
    rw [castTo_eq_self (hmem op (List.mem_cons_self _ _) _),
      ih _ rfl (fun op2 h2 => hmem op2 (List.mem_cons_of_mem _ h2))]

/-- Pointwise characterization of a modern kernel run. -/
theorem modern_kernel_char (nt vt N esR : Nat) (hnt : 0 < nt) (hvt : 0 < vt)
    (outBase : Int) (esA : Nat) (ins : List (Int × Mem)) (f : List Int → Int) (m : Mem)
    (hinj : ∀ p, p < N → ∀ q, q < N →
      outBase + (p : Int) * (esR : Int) = outBase + (q : Int) * (esR : Int) → p = q) :
    (∀ p, p < N →
      modern.elementwise_kernel nt vt N esR outBase esA ins f m
        (outBase + (p : Int) * (esR : Int)) = f (modernGather esA ins p)) ∧
    (∀ a : Int, (∀ p, p < N → a ≠ outBase + (p : Int) * (esR : Int)) →
      modern.elementwise_kernel nt vt N esR outBase esA ins f m a = m a) := by
  rw [modern_kernel_eq_foldl]
  constructor
  · intro p hp
    exact writeRun_covered
      (fun x hx y hy => hinj x ((mem_gridIdxList hnt hvt).mp hx) y
        ((mem_gridIdxList hnt hvt).mp hy))
      ((mem_gridIdxList hnt hvt).mpr hp)
  · intro a ha
    exact writeRun_not_covered (fun p hp => ha p ((mem_gridIdxList hnt hvt).mp hp))

/-- Characterization of a legacy launch whose body writes `V idx` at
`A idx`, transported to the spec-level address and value functions. -/
theorem legacy_launch_char (ideal : Bool) (nt vt N : Nat) (hnt : 0 < nt) (hvt : 0 < vt)
    (A V : Nat → Int) (s : DState) (outA ex : Nat → Int)
    (hN : ideal = true ∨ N ≤ 2 ^ 31 - 1)
    (haddr : ∀ p, p < N → A p = outA p) (hval : ∀ p, p < N → V p = ex p)
    (hinj : ∀ p, p < N → ∀ q, q < N → outA p = outA q → p = q) :
    ∃ st, legacy.launch_kernel ideal nt vt N (fun idx m => m.write (A idx) (V idx)) s =
        .ok st ∧
      (∀ p, p < N → st.out (outA p) = ex p) ∧
      (∀ a : Int, (∀ p, p < N → a ≠ outA p) → st.out a = s.out a) := by
  unfold legacy.launch_kernel
  have hcond : ¬ (ideal = false ∧ ¬ N ≤ 2 ^ 31 - 1) := by
    rcases hN with h | h
    · simp [h]
    · exact fun hh => hh.2 h
  rw [if_neg hcond]
  by_cases h0 : N = 0
  · subst h0
    rw [if_pos rfl]
    exact ⟨s, rfl, fun p hp => absurd hp (by omega), fun a _ => rfl⟩
  · rw [if_neg h0]
    have hinjA : ∀ p, p < N → ∀ q, q < N → A p = A q → p = q := by
      intro p hp q hq h
      rw [haddr p hp, haddr q hq] at h
      exact hinj p hp q hq h
    obtain ⟨h1, h2⟩ := legacy_kernel_char nt vt N hnt hvt A V s.out hinjA
    refine ⟨_, rfl, ?_, ?_⟩
    · intro p hp
      have := h1 p hp
      rw [haddr p hp, hval p hp] at this
      exact this
    · intro a ha
      exact h2 a (fun p hp hne => ha p hp (hne.trans (haddr p hp)))

/-- Characterization of a modern launch, transported to the spec-level
address and value functions. -/
theorem modern_launch_char (ideal : Bool) (nt vt N esR : Nat) (hnt : 0 < nt) (hvt : 0 < vt)
    (outBase : Int) (esA : Nat) (ins : List (Int × Mem)) (f : List Int → Int)
    (s : DState) (outA ex : Nat → Int)
    (hN : ideal = true ∨ N ≤ 2 ^ 31 - 1)
    (haddr : ∀ p, p < N → outBase + (p : Int) * (esR : Int) = outA p)
    (hval : ∀ p, p < N → f (modernGather esA ins p) = ex p)
    (hinj : ∀ p, p < N → ∀ q, q < N → outA p = outA q → p = q) :
    ∃ st, modern.launch_kernel ideal nt vt N esR outBase esA ins f s = .ok st ∧
      (∀ p, p < N → st.out (outA p) = ex p) ∧
      (∀ a : Int, (∀ p, p < N → a ≠ outA p) → st.out a = s.out a) := by
  unfold modern.launch_kernel
  have hcond : ¬ (ideal = false ∧ ¬ N ≤ 2 ^ 31 - 1) := by
    rcases hN with h | h
    · simp [h]
    · exact fun hh => hh.2 h
  rw [if_neg hcond]
  by_cases h0 : N = 0
  · subst h0
    rw [if_pos rfl]
    exact ⟨s, rfl, fun p hp => absurd hp (by omega), fun a _ => rfl⟩
  · rw [if_neg h0]
    have hinjA : ∀ p, p < N → ∀ q, q < N →
        outBase + (p : Int) * (esR : Int) = outBase + (q : Int) * (esR : Int) → p = q := by
      intro p hp q hq h
      rw [haddr p hp, haddr q hq] at h
      exact hinj p hp q hq h
    obtain ⟨h1, h2⟩ := modern_kernel_char nt vt N esR hnt hvt outBase esA ins f s.out hinjA
    refine ⟨_, rfl, ?_, ?_⟩
    · intro p hp
      have := h1 p hp
      rw [haddr p hp, hval p hp] at this
      exact this
    · intro a ha
      exact h2 a (fun p hp hne => ha p hp (hne.trans (haddr p hp)))

/-- The modern kernel's gather equals the raw pointwise reads when all
operands are packed and share the uniform argument element type. -/
theorem modernGather_eq_raw {e p : Nat} (t0 : ScalarType) (hp : p < e) :
    ∀ (ins : List Operand) (args : List ScalarType),
      ins.map (fun op => op.dtype) = args →
      (∀ t2 ∈ args, t2 = t0) →
      (∀ op ∈ ins, op.strides = [(op.dtype.esize : Int)]) →
      modernGather t0.esize (ins.map (fun op => (op.base, op.mem))) p =
        rawReadArgs [e] ins p := by
  intro ins
  induction ins with
  | nil => intro args _ _ _; rfl
  | cons op rest ih =>
    intro args hdt huni hst
    subst hdt
    unfold modernGather rawReadArgs at *
    simp only [List.map_cons, List.map] at huni ⊢
    have hopst := hst op (List.mem_cons_self _ _)
    have hdt0 : op.dtype = t0 := huni op.dtype (by simp)
    rw [hopst, offsetOf_single hp, hdt0,
      ih _ rfl (fun t2 h2 => huni t2 (by simp [h2]))
        (fun op2 h2 => hst op2 (List.mem_cons_of_mem _ h2))]

/-- Unpack the 32-bit indexability query. -/
theorem can_use_bounds {iter : TensorIterator} (h : iter.can_use_32bit_indexing = true) :
    iter.numel ≤ 2 ^ 31 - 1 ∧
      ∀ op ∈ iter.ops, TensorIterator.maxOffsetBound iter.shape op ≤ 2 ^ 31 - 1 := by
  unfold TensorIterator.can_use_32bit_indexing at h
  simp only [Bool.and_eq_true, List.all_eq_true, decide_eq_true_eq] at h
  exact h

/-- Unpack a negative dynamic-casting query into the dtype equation. -/
theorem needs_cast_false {sig : FuncSig} {iter : TensorIterator}
    (h : needs_dynamic_casting sig iter = false) :
    iter.ops.map (fun op => op.dtype) = sig.ret :: sig.args := by
  unfold needs_dynamic_casting at h
  have h2 : (iter.ops.map (fun op => op.dtype) == sig.ret :: sig.args) = true := by
    cases hb : iter.ops.map (fun op => op.dtype) == sig.ret :: sig.args
    · rw [hb] at h; simp at h
    · rfl
  exact eq_of_beq h2

/-- Unpack the contiguous-first-dimension query. -/
theorem contig_heads {iter : TensorIterator} (h : iter.has_contiguous_first_dim = true) :
    ∀ op ∈ iter.ops, op.strides.headD 0 = (op.dtype.esize : Int) := by
  unfold TensorIterator.has_contiguous_first_dim at h
  simpa only [List.all_eq_true, decide_eq_true_eq] using h

theorem toInt32_zero : toInt32 0 = 0 := toInt32_eq_self (by norm_num)

/-- Pointwise characterization of `gpu_kernel_impl`: under the iterator
guarantees, the dispatch succeeds and every logical position of the output
receives the pointwise-spec value while all other addresses are untouched,
whichever of the four paths is selected. -/
theorem gpu_kernel_impl_char (ideal : Bool) (sig : FuncSig) (f : List Int → Int)
    (iter : TensorIterator) (s : DState)
    (hwf : WF sig iter) (hinj : OutInj iter) (hmem : InsTyped iter)
    (hret : RetTyped sig f) (hvec : VecSafe sig iter)
    (hok : ideal = true ∨ iter.can_use_32bit_indexing = true) :
    ∃ st, gpu_kernel_impl ideal sig f iter s = .ok st ∧
      (∀ p, p < iter.numel → st.out (outAddr iter p) = expected sig f iter p) ∧
      (∀ a : Int, (∀ p, p < iter.numel → a ≠ outAddr iter p) → st.out a = s.out a) := by
  obtain ⟨shape, ops⟩ := iter
  obtain ⟨hcnt, hstl⟩ := hwf
  cases ops with
  | nil =>
    exfalso
    simp [TensorIterator.ntensors] at hcnt
  | cons out ins =>
    have hN32 : ideal = true ∨
        TensorIterator.numel ⟨shape, out :: ins⟩ ≤ 2 ^ 31 - 1 := by
      rcases hok with h | h
      · exact Or.inl h
      · exact Or.inr (can_use_bounds h).1
    have hbounds : ideal = false →
        ∀ op ∈ out :: ins,
          TensorIterator.maxOffsetBound shape op ≤ 2 ^ 31 - 1 := by
      intro hid op hop
      rcases hok with h | h
      · rw [hid] at h; exact absurd h (by simp)
      · exact (can_use_bounds h).2 op hop
    unfold gpu_kernel_impl
    have hc1 : ¬ (ideal = false ∧
        TensorIterator.can_use_32bit_indexing ⟨shape, out :: ins⟩ = false) := by
      rcases hok with h | h
      · simp [h]
      · intro hh; rw [h] at hh; exact absurd hh.2 (by simp)
    rw [if_neg hc1, if_neg (not_ne_iff.mpr hcnt)]
    simp only []
    have houtst : out.strides.length = shape.length :=
      hstl out (List.mem_cons_self _ _)
    have hexp : ∀ p, expected sig f ⟨shape, out :: ins⟩ p =
        castTo out.dtype (f (expectedArgs sig.args shape ins p)) := fun p => rfl
    have houtA : ∀ p, outAddr ⟨shape, out :: ins⟩ p =
        out.base + offsetOf shape out.strides p := fun p => rfl
    by_cases htriv : TensorIterator.is_trivial_1d ⟨shape, out :: ins⟩ = true
    · -- collapsed one-dimensional iteration
      obtain ⟨e, rfl⟩ : ∃ e, shape = [e] := by
        apply List.length_eq_one.mp
        simpa [TensorIterator.is_trivial_1d, TensorIterator.ndim] using htriv
      have hNe : TensorIterator.numel ⟨[e], out :: ins⟩ = e := by
        simp [TensorIterator.numel]
      -- uniform view of the (possibly narrowed) inner strides
      set g : Int → Int := (if ideal then id else toInt32) with hgdef
      have hsteq :
          (if ideal then TensorIterator.get_inner_strides ⟨[e], out :: ins⟩
            else (TensorIterator.get_inner_strides ⟨[e], out :: ins⟩).map toInt32) =
          (TensorIterator.get_inner_strides ⟨[e], out :: ins⟩).map g := by
        cases hi : ideal <;> simp [hgdef, hi]
      have hinner : TensorIterator.get_inner_strides ⟨[e], out :: ins⟩ =
          out.strides.headD 0 :: ins.map (fun op => op.strides.headD 0) := by
        simp [TensorIterator.get_inner_strides]
      -- per-operand product correspondence
      have hgmul : ∀ op ∈ out :: ins, ∀ p, p < e →
          (p : Int) * g (op.strides.headD 0) = offsetOf [e] op.strides p := by
        intro op hop p hp
        obtain ⟨sp, hsp⟩ : ∃ sp, op.strides = [sp] :=
          List.length_eq_one.mp (by simpa using hstl op hop)
        rw [hsp, offsetOf_single hp]
        simp only [List.headD]
        cases hi : ideal
        · have hb := hbounds hi op hop
          rw [maxOffsetBound_single rfl hsp] at hb
          simp only [hgdef, hi, if_false]
          exact stride_mul_eq hp hb
        · simp [hgdef, hi]
      have hgmulOut : ∀ p, p < e →
          ((TensorIterator.get_inner_strides ⟨[e], out :: ins⟩).map g).headD 0 * (p : Int) =
          offsetOf [e] out.strides p := by
        intro p hp
        rw [hinner]
        simp only [List.map_cons, List.headD]
        rw [mul_comm]
        exact hgmul out (List.mem_cons_self _ _) p hp
      have hgtail :
          ((TensorIterator.get_inner_strides ⟨[e], out :: ins⟩).map g).tail =
          (ins.map (fun op => op.strides.headD 0)).map g := by
        rw [hinner]; simp
      rw [if_pos htriv]
      by_cases hcast : needs_dynamic_casting sig ⟨[e], out :: ins⟩ = true
      · -- dynamic-casting collapsed 1-d path
        rw [if_pos hcast, hsteq]
        have hbody : trivialBodyCast sig f out ins
            ((TensorIterator.get_inner_strides ⟨[e], out :: ins⟩).map g) =
            fun idx m => m.write
              (out.base +
                ((TensorIterator.get_inner_strides ⟨[e], out :: ins⟩).map g).headD 0 *
                  (idx : Int))
              (castTo out.dtype (legacy.invoke_cast sig f ins
                ((TensorIterator.get_inner_strides ⟨[e], out :: ins⟩).map g).tail idx)) :=
          rfl
        rw [hbody]
        apply legacy_launch_char ideal launch_size_1d 1 _ (by norm_num [launch_size_1d])
          (by norm_num) _ _ s (outAddr ⟨[e], out :: ins⟩)
          (expected sig f ⟨[e], out :: ins⟩) hN32 _ _ hinj
        · intro p hp
          rw [hNe] at hp
          rw [houtA, hgmulOut p hp]
        · intro p hp
          rw [hNe] at hp
          rw [hexp, hgtail]
          unfold legacy.invoke_cast
          rw [invoke_cast_list_eq g ins sig.args
            (fun op hop => hgmul op (List.mem_cons_of_mem _ hop) p hp)]
      · -- no dynamic casting below: extract the dtype equation
        have hdt := needs_cast_false (by simpa using hcast)
        have hdtOut : out.dtype = sig.ret := by
          simpa using congrArg (fun l => l.headD sig.ret) hdt
        have hdtIns : ins.map (fun op => op.dtype) = sig.args := by
          have := congrArg List.tail hdt
          simpa using this
        have hmemIns : ∀ op ∈ ins, ∀ a : Int, op.dtype.inRange (op.mem a) := by
          intro op hop a
          exact hmem op (by simpa using hop) a
        have hexpRaw : ∀ p, expected sig f ⟨[e], out :: ins⟩ p =
            f (rawReadArgs [e] ins p) := by
          intro p
          rw [hexp, expectedArgs_eq_raw ins sig.args hdtIns hmemIns, hdtOut,
            castTo_eq_self (hret _)]
        rw [if_neg hcast]
        by_cases hcontig :
            TensorIterator.has_contiguous_first_dim ⟨[e], out :: ins⟩ = true
        · -- contiguous vectorized path
          rw [if_pos hcontig]
          have huni : ∀ t2 ∈ sig.args, t2 = sig.args.headD sig.ret := by
            rcases hvec with h | h | h
            · exact h
            · rw [h] at hcast; exact absurd rfl hcast
            · rw [h] at hcontig
              exact absurd hcontig (by simp)
          have hheads := contig_heads hcontig
          have hinsStr : ∀ op ∈ ins, op.strides = [(op.dtype.esize : Int)] := by
            intro op hop
            obtain ⟨sp, hsp⟩ : ∃ sp, op.strides = [sp] :=
              List.length_eq_one.mp (by simpa using hstl op (List.mem_cons_of_mem _ hop))
            have := hheads op (List.mem_cons_of_mem _ hop)
            rw [hsp] at this ⊢
            simp only [List.headD] at this
            rw [this]
          apply modern_launch_char ideal (warp_size * 2) 4 _ _
            (by norm_num [warp_size]) (by norm_num) out.base _ _ f s
            (outAddr ⟨[e], out :: ins⟩) (expected sig f ⟨[e], out :: ins⟩) hN32 _ _ hinj
          · intro p hp
            rw [hNe] at hp
            rw [houtA]
            have hs0 : out.strides = [(out.dtype.esize : Int)] := by
              obtain ⟨sp, hsp⟩ : ∃ sp, out.strides = [sp] :=
                List.length_eq_one.mp (by simpa using houtst)
              have := hheads out (List.mem_cons_self _ _)
              rw [hsp] at this ⊢
              simp only [List.headD] at this
              rw [this]
            rw [hs0, offsetOf_single hp, hdtOut]
          · intro p hp
            rw [hNe] at hp
            rw [hexpRaw,
              modernGather_eq_raw (sig.args.headD sig.ret) hp ins sig.args hdtIns huni
                hinsStr]
        · -- collapsed 1-d strided path, exact types
          rw [if_neg hcontig, hsteq]
          have hbody : trivialBodyNoCast f out ins
              ((TensorIterator.get_inner_strides ⟨[e], out :: ins⟩).map g) =
              fun idx m => m.write
                (out.base +
                  ((TensorIterator.get_inner_strides ⟨[e], out :: ins⟩).map g).headD 0 *
                    (idx : Int))
                (legacy.invoke f ins
                  ((TensorIterator.get_inner_strides ⟨[e], out :: ins⟩).map g).tail idx) :=
            rfl
          rw [hbody]
          apply legacy_launch_char ideal launch_size_1d 1 _ (by norm_num [launch_size_1d])
            (by norm_num) _ _ s (outAddr ⟨[e], out :: ins⟩)
            (expected sig f ⟨[e], out :: ins⟩) hN32 _ _ hinj
          · intro p hp
            rw [hNe] at hp
            rw [houtA, hgmulOut p hp]
          · intro p hp
            rw [hNe] at hp
            rw [hexpRaw, hgtail]
            unfold legacy.invoke
            rw [invoke_list_eq g ins
              (fun op hop => hgmul op (List.mem_cons_of_mem _ hop) p hp)]
    · -- multi-dimensional strided iteration through the offset calculator
      rw [if_neg htriv]
      by_cases hcast : needs_dynamic_casting sig ⟨shape, out :: ins⟩ = true
      · rw [if_pos hcast]
        have hbody : ndBodyCast sig f shape out ins =
            fun idx m => m.write (out.base + offsetOf shape out.strides idx)
              (castTo out.dtype
                (legacy.invoke_cast sig f ins (inOffsets shape ins idx) 1)) := rfl
        rw [hbody]
        apply legacy_launch_char ideal launch_size_nd launch_bound2 _
          (by norm_num [launch_size_nd]) (by norm_num [launch_bound2]) _ _ s
          (outAddr ⟨shape, out :: ins⟩) (expected sig f ⟨shape, out :: ins⟩) hN32 _ _ hinj
        · intro p hp
          rw [houtA]
        · intro p hp
          rw [hexp]
          unfold legacy.invoke_cast
          simp only [Nat.cast_one]
          rw [invoke_cast_nd_list_eq ins sig.args]
      · have hdt := needs_cast_false (by simpa using hcast)
        have hdtOut : out.dtype = sig.ret := by
          simpa using congrArg (fun l => l.headD sig.ret) hdt
        have hdtIns : ins.map (fun op => op.dtype) = sig.args := by
          have := congrArg List.tail hdt
          simpa using this
        have hmemIns : ∀ op ∈ ins, ∀ a : Int, op.dtype.inRange (op.mem a) := by
          intro op hop a
          exact hmem op (by simpa using hop) a
        have hexpRaw : ∀ p, expected sig f ⟨shape, out :: ins⟩ p =
            f (rawReadArgs shape ins p) := by
          intro p
          rw [hexp, expectedArgs_eq_raw ins sig.args hdtIns hmemIns, hdtOut,
            castTo_eq_self (hret _)]
        rw [if_neg hcast]
        have hbody : ndBodyNoCast f shape out ins =
            fun idx m => m.write (out.base + offsetOf shape out.strides idx)
              (legacy.invoke f ins (inOffsets shape ins idx) 1) := rfl
        rw [hbody]
        apply legacy_launch_char ideal launch_size_nd launch_bound2 _
          (by norm_num [launch_size_nd]) (by norm_num [launch_bound2]) _ _ s
          (outAddr ⟨shape, out :: ins⟩) (expected sig f ⟨shape, out :: ins⟩) hN32 _ _ hinj
        · intro p hp
          rw [houtA]
        · intro p hp
          rw [hexpRaw]
          unfold legacy.invoke
          simp only [Nat.cast_one]
          rw [invoke_nd_list_eq ins]

/-! ### Offsets under splitting of the outermost dimension -/

theorem prod_append_single (es : List Nat) (x : Nat) :
    (es ++ [x]).prod = es.prod * x := by
  simp

/-- Dropping an extent-1 outermost dimension does not change any offset. -/
theorem offsetOf_append_one :
    ∀ (es : List Nat) (σs : List Int) (σl : Int) (p : Nat),
      es.length = σs.length →
      offsetOf (es ++ [1]) (σs ++ [σl]) p = offsetOf es σs p := by
  intro es
  induction es with
  | nil =>
    intro σs σl p hlen
    cases σs with
    | nil => simp [offsetOf]
    | cons a l => simp at hlen
  | cons e2 es ih =>
    intro σs σl p hlen
    cases σs with
    | nil => simp at hlen
    | cons s ss =>
      simp only [List.cons_append, offsetOf, List.append_eq]
      rw [ih ss σl (p / e2) (by simpa using hlen)]

/-- Offsets in the first half of a split agree with the parent's. -/
theorem offsetOf_firstHalf :
    ∀ (es : List Nat) (σs : List Int) (σl : Int) (e e1 p : Nat),
      es.length = σs.length → e1 ≤ e → p < es.prod * e1 →
      offsetOf (es ++ [e1]) (σs ++ [σl]) p = offsetOf (es ++ [e]) (σs ++ [σl]) p := by
  intro es
  induction es with
  | nil =>
    intro σs σl e e1 p hlen he1 hp
    cases σs with
    | nil =>
      simp only [List.prod_nil, one_mul] at hp
      simp only [List.nil_append, offsetOf]
      rw [Nat.mod_eq_of_lt hp, Nat.mod_eq_of_lt (by omega)]
    | cons a l => simp at hlen
  | cons e2 es ih =>
    intro σs σl e e1 p hlen he1 hp
    cases σs with
    | nil => simp at hlen
    | cons s ss =>
      simp only [List.cons_append, offsetOf, List.append_eq]
      have he2 : 0 < e2 := by
        rcases Nat.eq_zero_or_pos e2 with h0 | h
        · rw [h0] at hp; simp at hp
        · exact h
      have hdiv : p / e2 < es.prod * e1 := by
        rw [Nat.div_lt_iff_lt_mul he2]
        calc p < e2 * es.prod * e1 := by
              simpa [List.prod_cons, Nat.mul_assoc] using hp
        _ = es.prod * e1 * e2 := by ring
      rw [ih ss σl e e1 (p / e2) (by simpa using hlen) he1 hdiv]

/-- Offsets in the second half of a split are the parent's at the shifted
position, minus one block of the outermost stride per skipped slice. -/
theorem offsetOf_secondHalf :
    ∀ (es : List Nat) (σs : List Int) (σl : Int) (e e1 q : Nat),
      es.length = σs.length → e1 ≤ e → q < es.prod * (e - e1) →
      offsetOf (es ++ [e]) (σs ++ [σl]) (es.prod * e1 + q) =
        (e1 : Int) * σl + offsetOf (es ++ [e - e1]) (σs ++ [σl]) q := by
  intro es
  induction es with
  | nil =>
    intro σs σl e e1 q hlen he1 hq
    cases σs with
    | nil =>
      simp only [List.prod_nil, one_mul] at hq ⊢
      simp only [List.nil_append, offsetOf]
      rw [Nat.mod_eq_of_lt (by omega), Nat.mod_eq_of_lt hq]
      push_cast
      ring
    | cons a l => simp at hlen
  | cons e2 es ih =>
    intro σs σl e e1 q hlen he1 hq
    cases σs with
    | nil => simp at hlen
    | cons s ss =>
      have he2 : 0 < e2 := by
        rcases Nat.eq_zero_or_pos e2 with h0 | h
        · rw [h0] at hq; simp at hq
        · exact h
      have hterm : (e2 :: es).prod * e1 = e2 * (es.prod * e1) := by
        simp [List.prod_cons]; ring
      simp only [List.cons_append, offsetOf, List.append_eq]
      rw [hterm]
      have hmod : (e2 * (es.prod * e1) + q) % e2 = q % e2 := by
        rw [Nat.add_comm, Nat.add_mul_mod_self_left]
      have hdiv : (e2 * (es.prod * e1) + q) / e2 = es.prod * e1 + q / e2 := by
        rw [Nat.add_comm, Nat.add_mul_div_left _ _ he2, Nat.add_comm]
      rw [hmod, hdiv]
      have hqdiv : q / e2 < es.prod * (e - e1) := by
        rw [Nat.div_lt_iff_lt_mul he2]
        calc q < e2 * es.prod * (e - e1) := by
              simpa [List.prod_cons, Nat.mul_assoc] using hq
        _ = es.prod * (e - e1) * e2 := by ring
      rw [ih ss σl e e1 (q / e2) (by simpa using hlen) he1 hqdiv]
      push_cast
      ring

/-- Decompose a nonempty stride vector into its leading part and last
element. -/
theorem strides_decomp {l : List Int} {k : Nat} (h : l.length = k + 1) :
    l.dropLast ++ [l.getLastD 0] = l ∧ l.dropLast.length = k := by
  have hne : l ≠ [] := by intro h0; rw [h0] at h; simp at h
  constructor
  · have hg : l.getLastD 0 = l.getLast hne := List.getLastD_eq_getLast? _ _ ▸ by
      rw [List.getLast?_eq_getLast l hne]; rfl
    rw [hg]
    exact List.dropLast_append_getLast hne
  · rw [List.length_dropLast, h]
    omega

theorem offsetOf_drop_op {shape : List Nat} (hlast : shape.getLast? = some 1)
    {st : List Int} (hlen : st.length = shape.length) (p : Nat) :
    offsetOf shape.dropLast st.dropLast p = offsetOf shape st p := by
  have hsh := dropLast_append_of_getLast? hlast
  have hshlen : shape.length = shape.dropLast.length + 1 := by
    conv_lhs => rw [← hsh]
    simp
  obtain ⟨hstd, hstdlen⟩ := strides_decomp (l := st) (k := shape.dropLast.length) (by omega)
  conv_rhs => rw [← hsh, ← hstd]
  rw [offsetOf_append_one _ _ _ _ hstdlen.symm]

theorem offsetOf_first_op {shape : List Nat} {e : Nat} (hlast : shape.getLast? = some e)
    {st : List Int} (hlen : st.length = shape.length) {e1 p : Nat}
    (he1 : e1 ≤ e) (hp : p < shape.dropLast.prod * e1) :
    offsetOf (shape.dropLast ++ [e1]) st p = offsetOf shape st p := by
  have hsh := dropLast_append_of_getLast? hlast
  have hshlen : shape.length = shape.dropLast.length + 1 := by
    conv_lhs => rw [← hsh]
    simp
  obtain ⟨hstd, hstdlen⟩ := strides_decomp (l := st) (k := shape.dropLast.length) (by omega)
  conv_lhs => rw [← hstd]
  conv_rhs => rw [← hsh, ← hstd]
  exact offsetOf_firstHalf shape.dropLast st.dropLast (st.getLastD 0) e e1 p
    hstdlen.symm he1 hp

theorem offsetOf_second_op {shape : List Nat} {e : Nat} (hlast : shape.getLast? = some e)
    {st : List Int} (hlen : st.length = shape.length) {e1 q : Nat}
    (he1 : e1 ≤ e) (hq : q < shape.dropLast.prod * (e - e1)) :
    offsetOf shape st (shape.dropLast.prod * e1 + q) =
      (e1 : Int) * st.getLastD 0 + offsetOf (shape.dropLast ++ [e - e1]) st q := by
  have hsh := dropLast_append_of_getLast? hlast
  have hshlen : shape.length = shape.dropLast.length + 1 := by
    conv_lhs => rw [← hsh]
    simp
  obtain ⟨hstd, hstdlen⟩ := strides_decomp (l := st) (k := shape.dropLast.length) (by omega)
  have key := offsetOf_secondHalf shape.dropLast st.dropLast (st.getLastD 0) e e1 q
    hstdlen.symm he1 hq
  rw [hstd, hsh] at key
  exact key

/-- Generic congruence of the pointwise argument list under an operand
transformation whose reads agree. -/
theorem expectedArgs_map_congr (g : Operand → Operand) (sh1 sh2 : List Nat)
    (p q : Nat) :
    ∀ (ins : List Operand) (args : List ScalarType),
      (∀ op ∈ ins, (g op).mem ((g op).base + offsetOf sh1 (g op).strides p) =
        op.mem (op.base + offsetOf sh2 op.strides q)) →
      expectedArgs args sh1 (ins.map g) p = expectedArgs args sh2 ins q := by
  intro ins
  induction ins with
  | nil => intro args _; rfl
  | cons op rest ih =>
    intro args hread
    cases args with
    | nil => rfl
    | cons a args2 =>
      unfold expectedArgs at *
      simp only [List.zip, List.map_cons, List.zipWith_cons_cons, List.map] at ih ⊢
      rw [hread op (List.mem_cons_self _ _),
        ih args2 (fun op2 h2 => hread op2 (List.mem_cons_of_mem _ h2))]

namespace TensorIterator

/-- Correspondence facts between an iterator whose outermost extent is 1 and
its re-coalesced form. -/
theorem drop_facts (sig : FuncSig) (f : List Int → Int) (iter : TensorIterator)
    (hlast : iter.shape.getLast? = some 1)
    (hstl : ∀ op ∈ iter.ops, op.strides.length = iter.shape.length) :
    (dropLastDim iter).numel = iter.numel ∧
    (∀ p, outAddr (dropLastDim iter) p = outAddr iter p) ∧
    (∀ p, expected sig f (dropLastDim iter) p = expected sig f iter p) := by
  obtain ⟨shape, ops⟩ := iter
  dsimp only [] at hlast hstl
  have hsh := dropLast_append_of_getLast? hlast
  refine ⟨?_, ?_, ?_⟩
  · show shape.dropLast.prod = shape.prod
    conv_rhs => rw [← hsh]
    simp
  · intro p
    cases ops with
    | nil => rfl
    | cons out ins =>
      show out.base + offsetOf shape.dropLast out.strides.dropLast p =
        out.base + offsetOf shape out.strides p
      rw [offsetOf_drop_op hlast (hstl out (List.mem_cons_self _ _)) p]
  · intro p
    cases ops with
    | nil => rfl
    | cons out ins =>
      show castTo out.dtype (f (expectedArgs sig.args shape.dropLast
          (ins.map (fun op => { op with strides := op.strides.dropLast })) p)) =
        castTo out.dtype (f (expectedArgs sig.args shape ins p))
      rw [expectedArgs_map_congr (fun op => { op with strides := op.strides.dropLast })
        shape.dropLast shape p p ins sig.args ?_]
      intro op hop
      show op.mem (op.base + offsetOf shape.dropLast op.strides.dropLast p) =
        op.mem (op.base + offsetOf shape op.strides p)
      rw [offsetOf_drop_op hlast (hstl op (List.mem_cons_of_mem _ hop)) p]

/-- Correspondence facts for the first half of a split. -/
theorem first_facts (sig : FuncSig) (f : List Int → Int) (iter : TensorIterator)
    {e e1 : Nat} (hlast : iter.shape.getLast? = some e) (he1 : e1 ≤ e)
    (hstl : ∀ op ∈ iter.ops, op.strides.length = iter.shape.length) :
    (firstHalf iter e1).numel = iter.shape.dropLast.prod * e1 ∧
    (∀ p, p < iter.shape.dropLast.prod * e1 →
      outAddr (firstHalf iter e1) p = outAddr iter p) ∧
    (∀ p, p < iter.shape.dropLast.prod * e1 →
      expected sig f (firstHalf iter e1) p = expected sig f iter p) := by
  obtain ⟨shape, ops⟩ := iter
  dsimp only [] at hlast hstl ⊢
  refine ⟨by simp [firstHalf, numel], ?_, ?_⟩
  · intro p hp
    cases ops with
    | nil => rfl
    | cons out ins =>
      show out.base + offsetOf (shape.dropLast ++ [e1]) out.strides p =
        out.base + offsetOf shape out.strides p
      rw [offsetOf_first_op hlast (hstl out (List.mem_cons_self _ _)) he1 hp]
  · intro p hp
    cases ops with
    | nil => rfl
    | cons out ins =>
      show castTo out.dtype
          (f (expectedArgs sig.args (shape.dropLast ++ [e1]) ins p)) =
        castTo out.dtype (f (expectedArgs sig.args shape ins p))
      have : expectedArgs sig.args (shape.dropLast ++ [e1]) ins p =
          expectedArgs sig.args shape ins p := by
        have h2 := expectedArgs_map_congr (fun op => op) (shape.dropLast ++ [e1])
          shape p p ins sig.args ?_
        · simpa using h2
        · intro op hop
          show op.mem (op.base + offsetOf (shape.dropLast ++ [e1]) op.strides p) =
            op.mem (op.base + offsetOf shape op.strides p)
          rw [offsetOf_first_op hlast (hstl op (List.mem_cons_of_mem _ hop)) he1 hp]
      rw [this]

/-- Correspondence facts for the second half of a split. -/
theorem second_facts (sig : FuncSig) (f : List Int → Int) (iter : TensorIterator)
    {e e1 : Nat} (hlast : iter.shape.getLast? = some e) (he1 : e1 ≤ e)
    (hstl : ∀ op ∈ iter.ops, op.strides.length = iter.shape.length) :
    (secondHalf iter e e1).numel = iter.shape.dropLast.prod * (e - e1) ∧
    (∀ q, q < iter.shape.dropLast.prod * (e - e1) →
      outAddr (secondHalf iter e e1) q =
        outAddr iter (iter.shape.dropLast.prod * e1 + q)) ∧
    (∀ q, q < iter.shape.dropLast.prod * (e - e1) →
      expected sig f (secondHalf iter e e1) q =
        expected sig f iter (iter.shape.dropLast.prod * e1 + q)) := by
  obtain ⟨shape, ops⟩ := iter
  dsimp only [] at hlast hstl ⊢
  refine ⟨by simp [secondHalf, numel], ?_, ?_⟩
  · intro q hq
    cases ops with
    | nil => rfl
    | cons out ins =>
      show out.base + (e1 : Int) * out.strides.getLastD 0 +
          offsetOf (shape.dropLast ++ [e - e1]) out.strides q =
        out.base + offsetOf shape out.strides (shape.dropLast.prod * e1 + q)
      rw [offsetOf_second_op hlast (hstl out (List.mem_cons_self _ _)) he1 hq]
      ring
  · intro q hq
    cases ops with
    | nil => rfl
    | cons out ins =>
      show castTo out.dtype (f (expectedArgs sig.args (shape.dropLast ++ [e - e1])
          (ins.map (fun op =>
            { op with base := op.base + (e1 : Int) * op.strides.getLastD 0 })) q)) =
        castTo out.dtype
          (f (expectedArgs sig.args shape ins (shape.dropLast.prod * e1 + q)))
      rw [expectedArgs_map_congr
        (fun op => { op with base := op.base + (e1 : Int) * op.strides.getLastD 0 })
        (shape.dropLast ++ [e - e1]) shape q (shape.dropLast.prod * e1 + q) ins
        sig.args ?_]
      intro op hop
      show op.mem (op.base + (e1 : Int) * op.strides.getLastD 0 +
          offsetOf (shape.dropLast ++ [e - e1]) op.strides q) =
        op.mem (op.base + offsetOf shape op.strides (shape.dropLast.prod * e1 + q))
      rw [offsetOf_second_op hlast (hstl op (List.mem_cons_of_mem _ hop)) he1 hq]
      ring_nf

end TensorIterator

theorem tail_map {α β : Type} (g : α → β) (l : List α) :
    (l.map g).tail = l.tail.map g := by
  cases l <;> simp

theorem headD_dropLast {α : Type} (l : List α) (d : α) (h : 2 ≤ l.length) :
    l.dropLast.headD d = l.headD d := by
  cases l with
  | nil => simp at h
  | cons a t =>
    cases t with
    | nil => simp at h
    | cons b t2 => rfl

/-- The iterator-side hypotheses of the dispatch characterization, bundled:
structural well-formedness, output-address injectivity, well-typed input
buffers, safety of the vectorized path's type assumption, and device
residency. -/
def GoodIter (sig : FuncSig) (iter : TensorIterator) : Prop :=
  WF sig iter ∧ OutInj iter ∧ InsTyped iter ∧ VecSafe sig iter ∧
    iter.ops.all (fun op => op.isCuda) = true

/-- Dynamic-casting need is unchanged by operand maps that keep dtypes. -/
theorem needs_cast_map (sig : FuncSig) (sh1 sh2 : List Nat) (ops : List Operand)
    (g : Operand → Operand) (hdt : ∀ op, (g op).dtype = op.dtype) :
    needs_dynamic_casting sig ⟨sh1, ops.map g⟩ = needs_dynamic_casting sig ⟨sh2, ops⟩ := by
  unfold needs_dynamic_casting
  have h2 : (ops.map g).map (fun op => op.dtype) = ops.map (fun op => op.dtype) := by
    rw [List.map_map]
    exact List.map_congr_left (fun a _ => hdt a)
  simp only []
  rw [h2]

/-- Transfer of the bundled hypotheses except well-formedness and output
injectivity along a dtype-, memory-, residency- and leading-stride-preserving
operand map. -/
theorem good_core_transfer (sig : FuncSig) (sh1 sh2 : List Nat) (ops : List Operand)
    (g : Operand → Operand)
    (hdt : ∀ op, (g op).dtype = op.dtype)
    (hmemg : ∀ op, (g op).mem = op.mem)
    (hcuda : ∀ op, (g op).isCuda = op.isCuda)
    (hstH : ∀ op ∈ ops, (g op).strides.headD 0 = op.strides.headD 0) :
    (InsTyped ⟨sh2, ops⟩ → InsTyped ⟨sh1, ops.map g⟩) ∧
    (VecSafe sig ⟨sh2, ops⟩ → VecSafe sig ⟨sh1, ops.map g⟩) ∧
    (ops.all (fun op => op.isCuda) = true →
      (ops.map g).all (fun op => op.isCuda) = true) := by
  refine ⟨?_, ?_, ?_⟩
  · intro h op2 hop2 a
    show op2.dtype.inRange (op2.mem a)
    have : (ops.map g).tail = ops.tail.map g := tail_map g ops
    rw [show (TensorIterator.mk sh1 (ops.map g)).ops.tail = ops.tail.map g from this] at hop2
    obtain ⟨op, hop, rfl⟩ := List.mem_map.mp hop2
    rw [hdt op, hmemg op]
    exact h op hop a
  · intro h
    rcases h with h | h | h
    · exact Or.inl h
    · refine Or.inr (Or.inl ?_)
      rw [needs_cast_map sig sh1 sh2 ops g hdt]
      exact h
    · refine Or.inr (Or.inr ?_)
      rw [Bool.eq_false_iff] at h ⊢
      intro hall
      apply h
      rw [TensorIterator.has_contiguous_first_dim, List.all_eq_true] at hall ⊢
      intro op hop
      have h2 := hall (g op) (List.mem_map_of_mem g hop)
      rw [decide_eq_true_eq] at h2 ⊢
      rw [hdt op, hstH op hop] at h2
      exact h2
  · intro h
    rw [List.all_eq_true] at h ⊢
    intro op2 hop2
    obtain ⟨op, hop, rfl⟩ := List.mem_map.mp hop2
    rw [hcuda op]
    exact h op hop

theorem foldlM_single {σ ε α : Type} (g : σ → α → Except ε σ) (s : σ) (a : α) :
    List.foldlM g s [a] = g s a := by
  simp

/-- One fuelled `gpu_kernel` step on an iterator that fits 32-bit indexing
(or is empty) runs the implementation and is pointwise correct. -/
theorem fuel_step_char (sig : FuncSig) (f : List Int → Int) (fz : Nat)
    (hret : RetTyped sig f) (iter : TensorIterator) (s : DState)
    (hG : GoodIter sig iter)
    (hfit : iter.can_use_32bit_indexing = true ∨ iter.numel = 0) :
    ∃ st, gpu_kernel_fuel sig f (fz + 1) iter s = .ok st ∧
      (∀ p, p < iter.numel → st.out (outAddr iter p) = expected sig f iter p) ∧
      (∀ a : Int, (∀ p, p < iter.numel → a ≠ outAddr iter p) → st.out a = s.out a) := by
  obtain ⟨hwf, hinj, hmem, hvec, hcuda⟩ := hG
  show ∃ st, (if ¬ iter.ops.all (fun op => op.isCuda) = true then .error .assertFailed
    else if iter.numel = 0 then .ok s
    else if iter.can_use_32bit_indexing = false then
      iter.with_32bit_indexing.foldlM (fun s2 sub => gpu_kernel_fuel sig f fz sub s2) s
    else gpu_kernel_impl false sig f iter s) = .ok st ∧ _
  rw [if_neg (not_not_intro hcuda)]
  by_cases h0 : iter.numel = 0
  · rw [if_pos h0]
    exact ⟨s, rfl, fun p hp => absurd hp (by omega), fun a _ => rfl⟩
  · rw [if_neg h0]
    have hfit2 : iter.can_use_32bit_indexing = true := by
      rcases hfit with h | h
      · exact h
      · exact absurd h h0
    rw [if_neg (by simp [hfit2])]
    exact gpu_kernel_impl_char false sig f iter s ⟨hwf.1, hwf.2⟩ hinj hmem hret hvec
      (Or.inr hfit2)

theorem shape_eq_singleton_of_getLast? {shape : List Nat} {e : Nat}
    (hlast : shape.getLast? = some e) (hlen : shape.length = 1) : shape = [e] := by
  obtain ⟨a, rfl⟩ := List.length_eq_one.mp hlen
  simp [List.getLast?] at hlast
  rw [hlast]

theorem can_use_of_short_shape {iter : TensorIterator}
    (h : iter.shape = [] ∨ iter.shape = [1]) :
    iter.can_use_32bit_indexing = true := by
  unfold TensorIterator.can_use_32bit_indexing TensorIterator.numel
    TensorIterator.maxOffsetBound
  rcases h with h | h <;>
    · rw [h]
      simp only [List.prod_nil, List.prod_cons, Bool.and_eq_true, decide_eq_true_eq,
        List.all_eq_true]
      refine ⟨by norm_num, ?_⟩
      intro op _
      cases op.strides <;> simp

/-- Sequentially dispatching every sub-iterator of the 32-bit split writes
exactly the parent's pointwise specification. -/
theorem split_foldl_char (sig : FuncSig) (f : List Int → Int) (fz : Nat)
    (hret : RetTyped sig f) :
    ∀ n : Nat, ∀ iter : TensorIterator, iter.splitMeasure ≤ n →
      GoodIter sig iter → ∀ s : DState,
      ∃ st, iter.with_32bit_indexing.foldlM
          (fun s2 sub => gpu_kernel_fuel sig f (fz + 1) sub s2) s = .ok st ∧
        (∀ p, p < iter.numel → st.out (outAddr iter p) = expected sig f iter p) ∧
        (∀ a : Int, (∀ p, p < iter.numel → a ≠ outAddr iter p) → st.out a = s.out a) := by
  intro n
  induction n with
  | zero =>
    intro iter hm hG s
    exfalso
    have h1 : 1 ≤ iter.splitMeasure := by
      unfold TensorIterator.splitMeasure TensorIterator.numel TensorIterator.ndim
      cases hs : iter.shape with
      | nil => simp
      | cons a t =>
        simp only [hs, List.prod_cons, List.length_cons]
        exact le_trans (by omega) (Nat.le_add_left _ _)
    omega
  | succ n ih =>
    intro iter hm hG s
    rw [TensorIterator.with_32bit_indexing]
    by_cases hfit : iter.can_use_32bit_indexing = true
    · rw [if_pos hfit, foldlM_single]
      exact fuel_step_char sig f fz hret iter s hG (Or.inl hfit)
    · rw [if_neg hfit]
      by_cases h0 : iter.numel = 0
      · rw [dif_pos h0, foldlM_single]
        exact fuel_step_char sig f fz hret iter s hG (Or.inr h0)
      · rw [dif_neg h0]
        split
        · -- empty shape: always fits, contradiction
          rename_i heq
          exact absurd (can_use_of_short_shape (Or.inl (List.getLast?_eq_none.mp heq)))
            hfit
        · rename_i e heq
          by_cases he1 : e ≤ 1
          · rw [dif_pos he1]
            by_cases hone : e = 1
            · -- outermost extent 1: re-coalesce and recurse
              subst hone
              rw [dif_pos rfl]
              simp only []
              have hnd2 : 2 ≤ iter.ndim := by
                by_contra hcon
                have hl1 : iter.shape.length = 1 := by
                  have : iter.shape ≠ [] := by
                    intro hnil; rw [hnil] at heq; simp at heq
                  have := List.length_pos.mpr this
                  unfold TensorIterator.ndim at hcon
                  omega
                exact absurd (can_use_of_short_shape
                  (Or.inr (shape_eq_singleton_of_getLast? heq hl1))) hfit
              obtain ⟨hwf, hinj, hmem, hvec, hcuda⟩ := hG
              obtain ⟨hD1, hD2, hD3⟩ := TensorIterator.drop_facts sig f iter heq hwf.2
              have hGdrop : GoodIter sig (TensorIterator.dropLastDim iter) := by
                obtain ⟨shape, ops⟩ := iter
                dsimp only [TensorIterator.dropLastDim] at hD1 hD2 hD3 ⊢
                have hcore := good_core_transfer sig shape.dropLast shape ops
                  (fun op => { op with strides := op.strides.dropLast })
                  (fun op => rfl) (fun op => rfl) (fun op => rfl)
                  (fun op hop => headD_dropLast op.strides 0
                    (by rw [hwf.2 op hop]; exact hnd2))
                refine ⟨⟨?_, ?_⟩, ?_, hcore.1 hmem, hcore.2.1 hvec, hcore.2.2 hcuda⟩
                · show (ops.map _).length = sig.arity + 1
                  rw [List.length_map]
                  exact hwf.1
                · intro op2 hop2
                  obtain ⟨op, hop, rfl⟩ := List.mem_map.mp hop2
                  show op.strides.dropLast.length = shape.dropLast.length
                  rw [List.length_dropLast, List.length_dropLast, hwf.2 op hop]
                  rfl
                · intro p hp q hq hpq
                  have hp2 : p < TensorIterator.numel ⟨shape, ops⟩ := by
                    rw [← hD1]; exact hp
                  have hq2 : q < TensorIterator.numel ⟨shape, ops⟩ := by
                    rw [← hD1]; exact hq
                  rw [hD2 p, hD2 q] at hpq
                  exact hinj p hp2 q hq2 hpq
              obtain ⟨st, hrun, hc, hu⟩ :=
                ih (TensorIterator.dropLastDim iter)
                  (by have := TensorIterator.splitMeasure_dropLastDim heq; omega)
                  hGdrop s
              refine ⟨st, hrun, ?_, ?_⟩
              · intro p hp
                rw [← hD2 p, ← hD3 p]
                exact hc p (by rw [hD1]; exact hp)
              · intro a ha
                refine hu a ?_
                intro p hp
                rw [hD2 p]
                exact ha p (by rw [← hD1]; exact hp)
            · -- outermost extent 0: the space is empty, contradiction
              rw [dif_neg hone]
              exfalso
              have he0 : e = 0 := by omega
              subst he0
              apply h0
              have := TensorIterator.numel_eq_dropLast_mul heq
              simpa using this
          · -- split the outermost dimension in half
            rw [dif_neg he1]
            simp only []
            have he2 : 2 ≤ e := by omega
            set e1 := e / 2 with he1def
            have hnum := TensorIterator.numel_eq_dropLast_mul heq
            have hP1 : 1 ≤ iter.shape.dropLast.prod := by
              rcases Nat.eq_zero_or_pos iter.shape.dropLast.prod with hz | hz
              · exfalso; apply h0; rw [hnum, hz]; ring
              · exact hz
            have hsum : iter.shape.dropLast.prod * e1 +
                iter.shape.dropLast.prod * (e - e1) = iter.numel := by
              rw [hnum, ← Nat.mul_add]
              congr 1
              omega
            obtain ⟨hwf, hinj, hmem, hvec, hcuda⟩ := hG
            obtain ⟨hF1, hF2, hF3⟩ :=
              @TensorIterator.first_facts sig f iter e e1 heq (by omega) hwf.2
            obtain ⟨hS1, hS2, hS3⟩ :=
              @TensorIterator.second_facts sig f iter e e1 heq (by omega) hwf.2
            have hn1le : iter.shape.dropLast.prod * e1 ≤ iter.numel := by omega
            have hshne : iter.shape ≠ [] := by
              intro hnil; rw [hnil] at heq; simp at heq
            have hlenpos : 0 < iter.shape.length := List.length_pos.mpr hshne
            have hndfirst : (TensorIterator.firstHalf iter e1).ndim = iter.ndim := by
              unfold TensorIterator.firstHalf TensorIterator.ndim
              simp only [List.length_append, List.length_dropLast, List.length_cons,
                List.length_nil]
              omega
            have hGfirst : GoodIter sig (TensorIterator.firstHalf iter e1) := by
              refine ⟨⟨hwf.1, ?_⟩, ?_, hmem, hvec, hcuda⟩
              · intro op hop
                rw [hndfirst]
                exact hwf.2 op hop
              · intro p hp q hq hpq
                rw [hF1] at hp hq
                rw [hF2 p hp, hF2 q hq] at hpq
                exact hinj p (by omega) q (by omega) hpq
            have hndsecond : (TensorIterator.secondHalf iter e e1).ndim = iter.ndim := by
              unfold TensorIterator.secondHalf TensorIterator.ndim
              simp only [List.length_append, List.length_dropLast, List.length_cons,
                List.length_nil]
              omega
            have hGsecond : GoodIter sig (TensorIterator.secondHalf iter e e1) := by
              have hcore := good_core_transfer sig (iter.shape.dropLast ++ [e - e1])
                iter.shape iter.ops
                (fun op => { op with base := op.base + (e1 : Int) * op.strides.getLastD 0 })
                (fun op => rfl) (fun op => rfl) (fun op => rfl) (fun op hop => rfl)
              refine ⟨⟨?_, ?_⟩, ?_, hcore.1 hmem, hcore.2.1 hvec, hcore.2.2 hcuda⟩
              · have hnt : (TensorIterator.secondHalf iter e e1).ntensors =
                    iter.ntensors := by
                  unfold TensorIterator.secondHalf TensorIterator.ntensors
                  simp
                rw [hnt]
                exact hwf.1
              · intro op2 hop2
                have hop3 : op2 ∈ iter.ops.map
                    (fun op =>
                      { op with base := op.base + (e1 : Int) * op.strides.getLastD 0 }) :=
                  hop2
                obtain ⟨op, hop, rfl⟩ := List.mem_map.mp hop3
                rw [hndsecond]
                exact hwf.2 op hop
              · intro p hp q hq hpq
                rw [hS1] at hp hq
                rw [hS2 p hp, hS2 q hq] at hpq
                have := hinj (iter.shape.dropLast.prod * e1 + p) (by omega)
                  (iter.shape.dropLast.prod * e1 + q) (by omega) hpq
                omega
            obtain ⟨st1, hrun1, hc1, hu1⟩ :=
              ih (TensorIterator.firstHalf iter e1)
                (by
                  have h2 := TensorIterator.splitMeasure_firstHalf heq he2 h0
                  rw [← he1def] at h2
                  omega)
                hGfirst s
            obtain ⟨st2, hrun2, hc2, hu2⟩ :=
              ih (TensorIterator.secondHalf iter e e1)
                (by
                  have h2 := TensorIterator.splitMeasure_secondHalf heq he2 h0
                  rw [← he1def] at h2
                  omega)
                hGsecond st1
            refine ⟨st2, ?_, ?_, ?_⟩
            · rw [List.foldlM_append, hrun1]
              exact hrun2
            · intro p hp
              by_cases hp1 : p < iter.shape.dropLast.prod * e1
              · -- covered by the first half; preserved by the second
                have haddr : outAddr iter p =
                    outAddr (TensorIterator.firstHalf iter e1) p := (hF2 p hp1).symm
                have hpres : st2.out (outAddr iter p) = st1.out (outAddr iter p) := by
                  apply hu2
                  intro q hq hne2
                  rw [hS1] at hq
                  rw [hS2 q hq] at hne2
                  have := hinj p hp (iter.shape.dropLast.prod * e1 + q) (by omega) hne2
                  omega
                rw [hpres, haddr, hc1 p (by rw [hF1]; exact hp1), hF3 p hp1]
              · -- covered by the second half
                set q := p - iter.shape.dropLast.prod * e1 with hqdef
                have hq : q < iter.shape.dropLast.prod * (e - e1) := by omega
                have hpq : p = iter.shape.dropLast.prod * e1 + q := by omega
                rw [hpq, ← hS2 q hq, ← hS3 q hq]
                exact hc2 q (by rw [hS1]; exact hq)
            · intro a ha
              have h2 : st2.out a = st1.out a := by
                apply hu2
                intro q hq
                rw [hS1] at hq
                rw [hS2 q hq]
                exact ha (iter.shape.dropLast.prod * e1 + q) (by omega)
              rw [h2]
              apply hu1
              intro q hq
              rw [hF1] at hq
              rw [hF2 q hq]
              exact ha q (by omega)

/-- Pointwise characterization of the public `gpu_kernel` entry point,
covering the 32-bit split, all four implementation paths, and the empty
space: the dispatch succeeds, writes the pointwise specification to every
logical output position, and leaves every other address untouched. -/
theorem gpu_kernel_char (sig : FuncSig) (f : List Int → Int) (iter : TensorIterator)
    (s : DState) (hG : GoodIter sig iter) (hret : RetTyped sig f) :
    ∃ st, gpu_kernel sig f iter s = .ok st ∧
      (∀ p, p < iter.numel → st.out (outAddr iter p) = expected sig f iter p) ∧
      (∀ a : Int, (∀ p, p < iter.numel → a ≠ outAddr iter p) → st.out a = s.out a) := by
  obtain ⟨hwf, hinj, hmem, hvec, hcuda⟩ := hG
  show ∃ st, (if ¬ iter.ops.all (fun op => op.isCuda) = true then .error .assertFailed
    else if iter.numel = 0 then .ok s
    else if iter.can_use_32bit_indexing = false then
      iter.with_32bit_indexing.foldlM
        (fun s2 sub => gpu_kernel_fuel sig f (iter.numel + 1) sub s2) s
    else gpu_kernel_impl false sig f iter s) = .ok st ∧ _
  rw [if_neg (not_not_intro hcuda)]
  by_cases h0 : iter.numel = 0
  · rw [if_pos h0]
    exact ⟨s, rfl, fun p hp => absurd hp (by omega), fun a _ => rfl⟩
  · rw [if_neg h0]
    by_cases hfit : iter.can_use_32bit_indexing = true
    · rw [if_neg (by simp [hfit])]
      exact gpu_kernel_impl_char false sig f iter s ⟨hwf.1, hwf.2⟩ hinj hmem hret hvec
        (Or.inr hfit)
    · have hfl : iter.can_use_32bit_indexing = false := by
        cases h : iter.can_use_32bit_indexing
        · rfl
        · exact absurd h hfit
      rw [if_pos hfl]
      exact split_foldl_char sig f iter.numel hret iter.splitMeasure iter le_rfl
        ⟨hwf, hinj, hmem, hvec, hcuda⟩ s

end PTLoops

namespace TorchJit

/-- One chunk of bytes handed to a writer callback. -/
abbrev Chunk := List Nat

/-- Modelled from the spec: the external `Pickler` collaborator
(`torch/csrc/jit/pickler.h`, outside `src/`).  Each field is the sequence of
byte chunks the corresponding method emits through the writer the pickler
was constructed over; the emissions may depend on the value being pickled
and, through the pickler's construction, on whether a tensor side table was
supplied. -/
structure Pickler (IValue : Type) where
  torchSaveStartC : IValue → Bool → List Chunk
  protocolC : IValue → Bool → List Chunk
  pushIValueC : IValue → Bool → List Chunk
  stopC : IValue → Bool → List Chunk
  torchSaveStopC : IValue → Bool → List Chunk

/-- Model of `pickle_stream` (source lines 10-31): construct the pickler
over the writer and tensor table, emit the torch.save prologue only when no
tensor table was provided, then the protocol header, the value, the stop
opcode, and the matching torch.save epilogue.  Every chunk is passed to the
writer callback, in order. -/
def pickle_stream {IValue σ : Type} (P : Pickler IValue) (writer : σ → Chunk → σ)
    (ivalue : IValue) (tensor_table : Option (List Nat)) (s : σ) : σ :=
  let ht := tensor_table.isSome
  let s1 := if tensor_table = none then (P.torchSaveStartC ivalue ht).foldl writer s else s
  let s2 := (P.protocolC ivalue ht).foldl writer s1
  let s3 := (P.pushIValueC ivalue ht).foldl writer s2
  let s4 := (P.stopC ivalue ht).foldl writer s3
  if tensor_table = none then (P.torchSaveStopC ivalue ht).foldl writer s4 else s4

/-- Model of `pickle` (source lines 33-46): run `pickle_stream` with a
writer that appends each chunk's bytes to the end of a growing byte
vector. -/
def pickle {IValue : Type} (P : Pickler IValue) (ivalue : IValue)
    (tensor_table : Option (List Nat)) : List Nat :=
  pickle_stream P (fun data c => data ++ c) ivalue tensor_table []

/-- The chunks `pickle_stream` passes to its writer callback, in order,
obtained by instrumenting the writer to record its calls. -/
def pickle_stream_chunks {IValue : Type} (P : Pickler IValue) (ivalue : IValue)
    (tensor_table : Option (List Nat)) : List Chunk :=
  pickle_stream P (fun l c => l ++ [c]) ivalue tensor_table []

theorem foldl_append_bytes (l : List Chunk) (d : List Nat) :
    l.foldl (fun d c => d ++ c) d = d ++ l.join := by
  induction l generalizing d with
  | nil => simp
  | cons c l ih => simp [ih, List.append_assoc]

theorem foldl_record_chunks (l : List Chunk) (d : List Chunk) :
    l.foldl (fun d c => d ++ [c]) d = d ++ l := by
  induction l generalizing d with
  | nil => simp
  | cons c l ih => simp [ih]

/-- The full emission sequence of one `pickle_stream` call. -/
def emitted {IValue : Type} (P : Pickler IValue) (ivalue : IValue)
    (tensor_table : Option (List Nat)) : List Chunk :=
  let ht := tensor_table.isSome
  (if tensor_table = none then P.torchSaveStartC ivalue ht else []) ++
    P.protocolC ivalue ht ++ P.pushIValueC ivalue ht ++ P.stopC ivalue ht ++
    (if tensor_table = none then P.torchSaveStopC ivalue ht else [])

theorem pickle_stream_eq_foldl {IValue σ : Type} (P : Pickler IValue)
    (writer : σ → Chunk → σ) (ivalue : IValue) (tensor_table : Option (List Nat))
    (s : σ) :
    pickle_stream P writer ivalue tensor_table s =
      (emitted P ivalue tensor_table).foldl writer s := by
  unfold pickle_stream emitted
  by_cases h : tensor_table = none <;>
    simp [h, List.foldl_append]

end TorchJit

namespace PTLoops

/-- C10: for every value and tensor-table argument, the byte vector
returned by `pickle` equals the in-order concatenation of exactly the chunks
`pickle_stream` passes to its writer callback for the same arguments —
nothing is reordered, dropped, or duplicated. -/
theorem C10_pickle_concatenates_stream_chunks {IValue : Type}
    (P : TorchJit.Pickler IValue) (ivalue : IValue)
    (tensor_table : Option (List Nat)) :
    TorchJit.pickle P ivalue tensor_table =
      (TorchJit.pickle_stream_chunks P ivalue tensor_table).join := by
  unfold TorchJit.pickle TorchJit.pickle_stream_chunks
  rw [TorchJit.pickle_stream_eq_foldl, TorchJit.pickle_stream_eq_foldl,
    TorchJit.foldl_append_bytes, TorchJit.foldl_record_chunks]
  simp

/-- Spec-side composition of the casting claim: convert each raw input
element to the function's static argument type by a direct numeric cast,
apply the function, and convert the result to the output operand's element
type by a direct numeric cast. -/
def castFirstApplyCastLast (argTypes : List ScalarType) (outDtype : ScalarType)
    (f : List Int → Int) (rawInputs : List Int) : Int :=
  castTo outDtype (f ((rawInputs.zip argTypes).map (fun q => castTo q.2 q.1)))

theorem cast_zip_factor {c : Int} :
    ∀ (l : List (Operand × Int)) (args : List ScalarType),
      ((l.zip args).map
        (fun q => castTo q.2 (q.1.1.mem (q.1.1.base + c * q.1.2)))) =
      (((l.map (fun q => q.1.mem (q.1.base + c * q.2))).zip args).map
        (fun q => castTo q.2 q.1)) := by
  intro l
  induction l with
  | nil => intro args; rfl
  | cons q l ih =>
    intro args
    cases args with
    | nil => rfl
    | cons a args2 =>
      simp only [List.zip, List.map_cons, List.zipWith_cons_cons, List.map] at ih ⊢
      rw [ih args2]

/-- C3: on both strided paths, the dynamic-casting invocation adapter
together with `cast_and_store` writes exactly the value obtained by first
converting each raw input element to the function's static argument type by
a direct numeric cast, applying the function, and then converting the result
to the output operand's element type by a direct numeric cast — with no
additional clamping. -/
theorem C3_casting_adapter_is_cast_apply_cast (sig : FuncSig) (f : List Int → Int)
    (out : Operand) (ins : List Operand) (strides : List Int) (shape : List Nat)
    (idx : Nat) (m : Mem) :
    trivialBodyCast sig f out ins strides idx m =
      m.write (out.base + strides.headD 0 * (idx : Int))
        (castFirstApplyCastLast sig.args out.dtype f
          ((ins.zip strides.tail).map
            (fun q => q.1.mem (q.1.base + (idx : Int) * q.2)))) ∧
    ndBodyCast sig f shape out ins idx m =
      m.write (out.base + offsetOf shape out.strides idx)
        (castFirstApplyCastLast sig.args out.dtype f
          ((ins.zip (inOffsets shape ins idx)).map
            (fun q => q.1.mem (q.1.base + (1 : Int) * q.2)))) := by
  constructor
  · unfold trivialBodyCast legacy.invoke_cast castFirstApplyCastLast
    rw [cast_zip_factor]
  · unfold ndBodyCast legacy.invoke_cast castFirstApplyCastLast
    rw [show ((1 : Nat) : Int) = (1 : Int) from rfl]
    rw [cast_zip_factor]

theorem all_eraseIdx {l : List Operand} {k : Nat}
    (h : l.all (fun op => op.isCuda) = true) :
    (l.eraseIdx k).all (fun op => op.isCuda) = true := by
  rw [List.all_eq_true] at h ⊢
  intro op hop
  exact h op (List.mem_of_mem_eraseIdx hop)

/-- C8: dispatching an iteration space with zero total elements through any
of the three public entry points returns immediately with the state
unchanged: no memory write is performed and no kernel is enqueued on the
stream. -/
theorem C8_zero_elements_no_effect (sig : FuncSig) (sigI : IdxFuncSig)
    (f : List Int → Int) (fI : List Int → Nat → Int) (iter : TensorIterator)
    (s : DState) (h0 : iter.numel = 0)
    (hcuda : iter.ops.all (fun op => op.isCuda) = true)
    (h3 : iter.ntensors = 3) (h2 : sig.args.length = 2) :
    gpu_kernel sig f iter s = .ok s ∧
    gpu_kernel_with_scalars sig f iter s = .ok s ∧
    gpu_kernel_with_index sigI fI iter s = .ok s := by
  have hgk : ∀ (sig2 : FuncSig) (f2 : List Int → Int) (iter2 : TensorIterator),
      iter2.numel = 0 → iter2.ops.all (fun op => op.isCuda) = true →
      gpu_kernel sig2 f2 iter2 s = .ok s := by
    intro sig2 f2 iter2 h02 hcuda2
    show (if ¬ iter2.ops.all (fun op => op.isCuda) = true then .error .assertFailed
      else if iter2.numel = 0 then .ok s
      else if iter2.can_use_32bit_indexing = false then
        iter2.with_32bit_indexing.foldlM
          (fun s2 sub => gpu_kernel_fuel sig2 f2 (iter2.numel + 1) sub s2) s
      else gpu_kernel_impl false sig2 f2 iter2 s) = .ok s
    rw [if_neg (not_not_intro hcuda2), if_pos h02]
  refine ⟨hgk sig f iter h0 hcuda, ?_, ?_⟩
  · unfold gpu_kernel_with_scalars
    rw [if_neg (not_not_intro h3), if_neg (not_not_intro h2)]
    by_cases hs1 : iter.is_cpu_scalar 1
    · rw [if_pos hs1]
      exact hgk _ _ _ (by simpa [TensorIterator.remove_operand, TensorIterator.numel]
        using h0) (all_eraseIdx hcuda)
    · rw [if_neg hs1]
      by_cases hs2 : iter.is_cpu_scalar 2
      · rw [if_pos hs2]
        exact hgk _ _ _ (by simpa [TensorIterator.remove_operand, TensorIterator.numel]
          using h0) (all_eraseIdx hcuda)
      · rw [if_neg hs2]
        exact hgk sig f iter h0 hcuda
  · unfold gpu_kernel_with_index
    rw [if_neg (not_not_intro hcuda), if_pos h0]

/-- C9: the index-augmented dispatch entry point requires the operand count
to equal the function's arity exactly — a mismatch is a fatal assertion, and
a matching count proceeds to a launch — and an iteration space whose element
count exceeds the signed 32-bit range is a fatal precondition failure at
dispatch entry: it is never split into sub-dispatches and never retried. -/
theorem C9_with_index_preconditions (sigI : IdxFuncSig) (fI : List Int → Nat → Int)
    (iter : TensorIterator) (s : DState)
    (hcuda : iter.ops.all (fun op => op.isCuda) = true) :
    (2 ^ 31 - 1 < iter.numel →
      gpu_kernel_with_index sigI fI iter s = .error .assertFailed) ∧
    (iter.can_use_32bit_indexing = true → iter.numel ≠ 0 →
      iter.ntensors ≠ sigI.arity →
      gpu_kernel_with_index sigI fI iter s = .error .assertFailed) ∧
    (iter.can_use_32bit_indexing = true → iter.numel ≠ 0 →
      iter.ntensors = sigI.arity →
      ∃ st, gpu_kernel_with_index sigI fI iter s = .ok st) := by
  refine ⟨?_, ?_, ?_⟩
  · intro hbig
    unfold gpu_kernel_with_index
    have h0 : iter.numel ≠ 0 := by omega
    have hfl : iter.can_use_32bit_indexing = false := by
      unfold TensorIterator.can_use_32bit_indexing
      simp only [Bool.and_eq_false_iff, decide_eq_false_iff_not]
      exact Or.inl (by omega)
    rw [if_neg (not_not_intro hcuda), if_neg h0, if_pos hfl]
  · intro hfit h0 hmis
    unfold gpu_kernel_with_index gpu_kernel_with_index_impl
    rw [if_neg (not_not_intro hcuda), if_neg h0, if_neg (by simp [hfit]),
      if_pos hmis]
  · intro hfit h0 hcnt
    unfold gpu_kernel_with_index gpu_kernel_with_index_impl
    rw [if_neg (not_not_intro hcuda), if_neg h0, if_neg (by simp [hfit]),
      if_neg (not_not_intro hcnt)]
    have hle : iter.numel ≤ 2 ^ 31 - 1 := (can_use_bounds hfit).1
    cases hops : iter.ops with
    | nil =>
      exfalso
      have : iter.ntensors = 0 := by
        unfold TensorIterator.ntensors
        rw [hops]
        rfl
      rw [this] at hcnt
      unfold IdxFuncSig.arity at hcnt
      omega
    | cons out ins =>
      simp only []
      have hlaunch : ∀ (nt vt : Nat) (body : Nat → Mem → Mem),
          ∃ st, legacy.launch_kernel false nt vt iter.numel body s = .ok st := by
        intro nt vt body
        unfold legacy.launch_kernel
        rw [if_neg (fun hh => hh.2 hle)]
        by_cases hz : iter.numel = 0
        · exact absurd hz h0
        · rw [if_neg hz]
          exact ⟨_, rfl⟩
      by_cases htriv : iter.is_trivial_1d
      · rw [if_pos htriv]
        by_cases hc : needs_dynamic_casting_idx sigI iter
        · rw [if_pos hc]; exact hlaunch _ _ _
        · rw [if_neg hc]; exact hlaunch _ _ _
      · rw [if_neg htriv]
        by_cases hc : needs_dynamic_casting_idx sigI iter
        · rw [if_pos hc]; exact hlaunch _ _ _
        · rw [if_neg hc]; exact hlaunch _ _ _

/-- Constant-zero device-resident operand used by concrete instantiations. -/
def devOp (b : Int) (st : List Int) (t : ScalarType) : Operand :=
  { base := b, mem := fun _ => 0, strides := st, dtype := t, isCuda := true,
    cpuScalar := false }

/-- Initial dispatch state of the concrete instantiations. -/
def s0 : DState := { out := fun _ => 0, launches := 0 }

/-- Trivial function values for the concrete instantiations. -/
def f0 : List Int → Int := fun _ => 0

/-- Trivial index-augmented function value. -/
def fI0 : List Int → Nat → Int := fun _ _ => 0

/-- Empty 3-operand iterator for the zero-element instantiation. -/
def iterC8 : TensorIterator :=
  ⟨[0], [devOp 0 [4] .int32, devOp 100 [4] .int32, devOp 200 [4] .int32]⟩

/-- Binary int32 signature. -/
def sigC8 : FuncSig := { args := [.int32, .int32], ret := .int32 }

/-- Index-augmented signature with one memory argument. -/
def sigIC9 : IdxFuncSig := { memArgs := [.int32], ret := .int32 }

theorem C8_witness :
    gpu_kernel sigC8 f0 iterC8 s0 = .ok s0 ∧
    gpu_kernel_with_scalars sigC8 f0 iterC8 s0 = .ok s0 ∧
    gpu_kernel_with_index sigIC9 fI0 iterC8 s0 = .ok s0 :=
  C8_zero_elements_no_effect sigC8 sigIC9 f0 fI0 iterC8 s0 rfl rfl rfl rfl

/-- Oversized iterator (2^31 elements) for the index-width instantiation. -/
def iterC9big : TensorIterator :=
  ⟨[2 ^ 31], [devOp 0 [4] .int32, devOp 100 [4] .int32]⟩

/-- Iterator with too few operands for the arity instantiation. -/
def iterC9mis : TensorIterator := ⟨[2], [devOp 0 [4] .int32]⟩

/-- Well-formed two-operand iterator for the arity instantiation. -/
def iterC9ok : TensorIterator := ⟨[2], [devOp 0 [4] .int32, devOp 100 [4] .int32]⟩

theorem C9_witness :
    gpu_kernel_with_index sigIC9 fI0 iterC9big s0 = .error .assertFailed ∧
    gpu_kernel_with_index sigIC9 fI0 iterC9mis s0 = .error .assertFailed ∧
    ∃ st, gpu_kernel_with_index sigIC9 fI0 iterC9ok s0 = .ok st :=
  ⟨(C9_with_index_preconditions sigIC9 fI0 iterC9big s0 rfl).1 (by decide),
   (C9_with_index_preconditions sigIC9 fI0 iterC9mis s0 rfl).2.1 (by decide) (by decide)
     (by decide),
   (C9_with_index_preconditions sigIC9 fI0 iterC9ok s0 rfl).2.2 (by decide) (by decide)
     (by decide)⟩

theorem idxFrom_head? (nt N idx0 cnt : Nat) :
    (idxFrom nt N idx0 cnt).head? = none ∨
      (idxFrom nt N idx0 cnt).head? = some idx0 := by
  cases cnt with
  | zero => exact Or.inl rfl
  | succ cnt =>
    rw [idxFrom_succ]
    by_cases h : idx0 < N
    · simp [h]
    · rw [if_neg h]
      rw [idxFrom_dead (show N ≤ idx0 + nt by omega)]
      exact Or.inl rfl

theorem chain_idxFrom (nt N : Nat) :
    ∀ (cnt idx0 : Nat), List.Chain' (fun x y => y = x + nt) (idxFrom nt N idx0 cnt) := by
  intro cnt
  induction cnt with
  | zero => intro idx0; simp [idxFrom]
  | succ cnt ih =>
    intro idx0
    rw [idxFrom_succ]
    by_cases h : idx0 < N
    · rw [if_pos h]
      simp only [List.cons_append, List.nil_append]
      rw [List.chain'_cons']
      refine ⟨?_, ih (idx0 + nt)⟩
      intro y hy
      rcases idxFrom_head? nt N (idx0 + nt) cnt with hh | hh
      · rw [hh] at hy; simp at hy
      · rw [hh] at hy
        simp at hy
        omega
    · rw [if_neg h]
      simp only [List.nil_append]
      exact ih (idx0 + nt)

/-- C7 (amended): for every launch geometry derived from the element count
(groups = count over per-group factor, rounded up), the index sets of
distinct execution units are pairwise disjoint, their union covers exactly
the indices below the element count, and within one unit consecutive owned
elements are separated by the per-group execution-unit count `nt` (the block
size) — not by the total execution-unit count. -/
theorem C7_launch_geometry (nt vt N : Nat) (hnt : 0 < nt) (hvt : 0 < vt) :
    (∀ b t b2 t2, t < nt → t2 < nt → (b, t) ≠ (b2, t2) →
      ∀ x, x ∈ threadIdxList nt vt N b t → x ∉ threadIdxList nt vt N b2 t2) ∧
    (∀ x, x < N ↔ ∃ b t, b < gridSize nt vt N ∧ t < nt ∧
      x ∈ threadIdxList nt vt N b t) ∧
    (∀ b t, List.Chain' (fun x y => y = x + nt) (threadIdxList nt vt N b t)) := by
  refine ⟨?_, ?_, ?_⟩
  · intro b t b2 t2 ht ht2 hne x hx hx2
    rcases mem_threadIdxList.mp hx with ⟨i, hi, hxe, _⟩
    rcases mem_threadIdxList.mp hx2 with ⟨i2, hi2, hxe2, _⟩
    have heq : nt * vt * b + t + nt * i = nt * vt * b2 + t2 + nt * i2 := by
      rw [← hxe, ← hxe2]
    obtain ⟨hb, htt, _⟩ := idx_decomp_unique ht ht2 hi hi2 heq
    exact hne (by rw [hb, htt])
  · intro x
    constructor
    · intro hx
      have hmem := (mem_gridIdxList hnt hvt).mpr hx
      unfold gridIdxList at hmem
      simp only [List.mem_bind, List.mem_range] at hmem
      obtain ⟨b, hb, t, ht, hmem⟩ := hmem
      exact ⟨b, t, hb, ht, hmem⟩
    · rintro ⟨b, t, _, _, hmem⟩
      rcases mem_threadIdxList.mp hmem with ⟨i, _, _, hlt⟩
      exact hlt
  · intro b t
    exact chain_idxFrom nt N vt (nt * vt * b + t)

theorem C7_witness :
    0 < launch_size_nd ∧ 0 < launch_bound2 ∧
    (∀ x, x < 1024 ↔ ∃ b t, b < gridSize launch_size_nd launch_bound2 1024 ∧
      t < launch_size_nd ∧ x ∈ threadIdxList launch_size_nd launch_bound2 1024 b t) :=
  ⟨by decide, by decide,
    (C7_launch_geometry launch_size_nd launch_bound2 1024 (by decide) (by decide)).2.1⟩

/-- Every index visited by the grid is below the element count. -/
theorem gridIdxList_lt {nt vt N p : Nat} (h : p ∈ gridIdxList nt vt N) : p < N := by
  unfold gridIdxList at h
  simp only [List.mem_bind, List.mem_range] at h
  obtain ⟨b, _, t, _, h⟩ := h
  unfold threadIdxList at h
  exact idxFrom_lt h

/-- C6: boundary masking.  In the general strided kernel the per-index body
is never invoked at an index at or beyond `N` (the run is unchanged when the
body is replaced by any other body agreeing below `N`); in the contiguous
vectorized kernel no address outside the output slots of indices below `N`
is ever written, and no input location outside the gather addresses of
indices below `N` is ever read (the run is unchanged when the inputs are
replaced by inputs whose gathered values agree below `N`). -/
theorem C6_boundary_masking (nt vt N esR : Nat) (outBase : Int) (esA : Nat)
    (f : List Int → Int) (g h : Nat → Mem → Mem) (ins ins2 : List (Int × Mem))
    (m : Mem) :
    ((∀ p, p < N → g p = h p) →
      legacy.elementwise_kernel nt vt N g m = legacy.elementwise_kernel nt vt N h m) ∧
    (∀ a : Int, (∀ p, p < N → a ≠ outBase + (p : Int) * (esR : Int)) →
      modern.elementwise_kernel nt vt N esR outBase esA ins f m a = m a) ∧
    ((∀ p, p < N → modernGather esA ins p = modernGather esA ins2 p) →
      modern.elementwise_kernel nt vt N esR outBase esA ins f m =
        modern.elementwise_kernel nt vt N esR outBase esA ins2 f m) := by
  refine ⟨?_, ?_, ?_⟩
  · intro hag
    rw [legacy_kernel_eq_foldl, legacy_kernel_eq_foldl]
    refine List.foldl_ext _ _ m ?_
    intro m2 p hp
    rw [hag p (gridIdxList_lt hp)]
  · intro a ha
    rw [modern_kernel_eq_foldl]
    exact writeRun_not_covered (fun p hp => ha p (gridIdxList_lt hp))
  · intro hag
    rw [modern_kernel_eq_foldl, modern_kernel_eq_foldl]
    exact writeRun_congr_V (fun p hp => by rw [hag p (gridIdxList_lt hp)])

/-- All-zero memory used by concrete instantiations. -/
def m0 : Mem := fun _ => 0

/-- Legacy body writing 1 at every index it is invoked on. -/
def gC6 : Nat → Mem → Mem := fun p m => m.write (p : Int) 1

/-- Same body, additionally guarded below 3. -/
def hC6 : Nat → Mem → Mem := fun p m => if p < 3 then m.write (p : Int) 1 else m

/-- Identity-valued input buffer. -/
def insC6a : List (Int × Mem) := [(100, fun a => a)]

/-- Input buffer agreeing with the identity only on addresses up to 102. -/
def insC6b : List (Int × Mem) := [(100, fun a => if a ≤ 102 then a else 7)]

theorem C6_witness :
    (∀ p, p < 3 → gC6 p = hC6 p) ∧
    legacy.elementwise_kernel 2 2 3 gC6 m0 = legacy.elementwise_kernel 2 2 3 hC6 m0 ∧
    (∀ p : Nat, p < 3 → (-1 : Int) ≠ 0 + (p : Int) * 1) ∧
    modern.elementwise_kernel 2 2 3 1 0 1 insC6a f0 m0 (-1) = m0 (-1) ∧
    (∀ p, p < 3 → modernGather 1 insC6a p = modernGather 1 insC6b p) ∧
    modern.elementwise_kernel 2 2 3 1 0 1 insC6a f0 m0 =
      modern.elementwise_kernel 2 2 3 1 0 1 insC6b f0 m0 := by
  have hag : ∀ p, p < 3 → gC6 p = hC6 p := by
    intro p hp
    funext m
    simp [gC6, hC6, hp]
  have hread : ∀ p, p < 3 → modernGather 1 insC6a p = modernGather 1 insC6b p := by
    intro p hp
    simp only [modernGather, insC6a, insC6b, List.map_cons, List.map_nil]
    rw [if_pos (by omega)]
  have hmain := C6_boundary_masking 2 2 3 1 0 1 f0 gC6 hC6 insC6a insC6b m0
  refine ⟨hag, hmain.1 hag, ?_, hmain.2.1 (-1) ?_, hread, hmain.2.2 hread⟩
  · intro p _ hEq
    have hp0 : (0 : Int) ≤ (p : Int) := Int.natCast_nonneg p
    omega
  · intro p _ hEq
    have hp0 : (0 : Int) ≤ (p : Int) := Int.natCast_nonneg p
    rw [show ((1 : Nat) : Int) = 1 from rfl] at hEq
    omega

/-- Element sizes are positive. -/
theorem esize_pos (t : ScalarType) : 0 < t.esize := by
  cases t <;> decide

/-- C2: path equivalence.  On a collapsed one-dimensional iteration that
needs no dynamic casting, has every operand packed (first-dimension stride
equal to its element size), satisfies the contiguous kernel's documented
uniform-argument-type assumption, and is 32-bit indexable — i.e. an input on
which both kernels are applicable — the contiguous vectorized launch and the
general strided launch with the non-casting invocation adapter succeed and
leave bit-identical output memory. -/
theorem C2_path_equivalence (sig : FuncSig) (f : List Int → Int) (e : Nat)
    (out : Operand) (ins : List Operand) (s : DState)
    (hwf : WF sig ⟨[e], out :: ins⟩)
    (hcast : needs_dynamic_casting sig ⟨[e], out :: ins⟩ = false)
    (hcontig : TensorIterator.has_contiguous_first_dim ⟨[e], out :: ins⟩ = true)
    (huni : ∀ t2 ∈ sig.args, t2 = sig.args.headD sig.ret)
    (hok : TensorIterator.can_use_32bit_indexing ⟨[e], out :: ins⟩ = true) :
    ∃ st1 st2,
      modern.launch_kernel false (warp_size * 2) 4 (TensorIterator.numel ⟨[e], out :: ins⟩)
          sig.ret.esize out.base (sig.args.headD sig.ret).esize
          (ins.map (fun op => (op.base, op.mem))) f s = .ok st1 ∧
      legacy.launch_kernel false launch_size_1d 1 (TensorIterator.numel ⟨[e], out :: ins⟩)
          (trivialBodyNoCast f out ins
            ((TensorIterator.get_inner_strides ⟨[e], out :: ins⟩).map toInt32)) s = .ok st2 ∧
      st1.out = st2.out := by
  obtain ⟨-, hstl⟩ := hwf
  have hNe : TensorIterator.numel ⟨[e], out :: ins⟩ = e := by
    simp [TensorIterator.numel]
  have hN : e ≤ 2 ^ 31 - 1 := by
    have h := (can_use_bounds hok).1
    rw [hNe] at h
    exact h
  have hbound : ∀ op ∈ out :: ins, TensorIterator.maxOffsetBound [e] op ≤ 2 ^ 31 - 1 :=
    (can_use_bounds hok).2
  rw [hNe]
  have hdt := needs_cast_false hcast
  have hdtOut : out.dtype = sig.ret := by
    simpa using congrArg (fun l => l.headD sig.ret) hdt
  have hdtIns : ins.map (fun op => op.dtype) = sig.args := by
    have := congrArg List.tail hdt
    simpa using this
  have hheads := contig_heads hcontig
  have hs0 : out.strides = [(out.dtype.esize : Int)] := by
    obtain ⟨sp, hsp⟩ : ∃ sp, out.strides = [sp] :=
      List.length_eq_one.mp (by simpa using hstl out (List.mem_cons_self _ _))
    have h := hheads out (List.mem_cons_self _ _)
    rw [hsp] at h ⊢
    simp only [List.headD] at h
    rw [h]
  have hinsStr : ∀ op ∈ ins, op.strides = [(op.dtype.esize : Int)] := by
    intro op hop
    obtain ⟨sp, hsp⟩ : ∃ sp, op.strides = [sp] :=
      List.length_eq_one.mp (by simpa using hstl op (List.mem_cons_of_mem _ hop))
    have h := hheads op (List.mem_cons_of_mem _ hop)
    rw [hsp] at h ⊢
    simp only [List.headD] at h
    rw [h]
  have houtA : ∀ p, outAddr ⟨[e], out :: ins⟩ p =
      out.base + offsetOf [e] out.strides p := fun p => rfl
  have hesz : (0 : Int) < (out.dtype.esize : Int) := by
    exact_mod_cast esize_pos out.dtype
  have hinj : ∀ p, p < e → ∀ q, q < e →
      outAddr ⟨[e], out :: ins⟩ p = outAddr ⟨[e], out :: ins⟩ q → p = q := by
    intro p hp q hq h
    rw [houtA, houtA, hs0, offsetOf_single hp, offsetOf_single hq] at h
    have h2 := add_left_cancel h
    have h3 := mul_right_cancel₀ (ne_of_gt hesz) h2
    exact_mod_cast h3
  have hgmul : ∀ op ∈ out :: ins, ∀ p, p < e →
      (p : Int) * toInt32 (op.strides.headD 0) = offsetOf [e] op.strides p := by
    intro op hop p hp
    obtain ⟨sp, hsp⟩ : ∃ sp, op.strides = [sp] :=
      List.length_eq_one.mp (by simpa using hstl op hop)
    rw [hsp, offsetOf_single hp]
    simp only [List.headD]
    have hb := hbound op hop
    rw [maxOffsetBound_single rfl hsp] at hb
    exact stride_mul_eq hp hb
  have hinner : TensorIterator.get_inner_strides ⟨[e], out :: ins⟩ =
      out.strides.headD 0 :: ins.map (fun op => op.strides.headD 0) := by
    simp [TensorIterator.get_inner_strides]
  have hgmulOut : ∀ p, p < e →
      ((TensorIterator.get_inner_strides ⟨[e], out :: ins⟩).map toInt32).headD 0 *
        (p : Int) = offsetOf [e] out.strides p := by
    intro p hp
    rw [hinner]
    simp only [List.map_cons, List.headD]
    rw [mul_comm]
    exact hgmul out (List.mem_cons_self _ _) p hp
  have hgtail : ((TensorIterator.get_inner_strides ⟨[e], out :: ins⟩).map toInt32).tail =
      (ins.map (fun op => op.strides.headD 0)).map toInt32 := by
    rw [hinner]; simp
  obtain ⟨st1, hrun1, hpt1, hfr1⟩ :=
    modern_launch_char false (warp_size * 2) 4 e sig.ret.esize
      (by norm_num [warp_size]) (by norm_num) out.base (sig.args.headD sig.ret).esize
      (ins.map (fun op => (op.base, op.mem))) f s (outAddr ⟨[e], out :: ins⟩)
      (fun p => f (rawReadArgs [e] ins p)) (Or.inr hN)
      (by
        intro p hp
        rw [houtA, hs0, offsetOf_single hp, hdtOut])
      (by
        intro p hp
        rw [modernGather_eq_raw (sig.args.headD sig.ret) hp ins sig.args hdtIns huni
          hinsStr])
      hinj
  have hbody : trivialBodyNoCast f out ins
      ((TensorIterator.get_inner_strides ⟨[e], out :: ins⟩).map toInt32) =
      fun idx m => m.write
        (out.base +
          ((TensorIterator.get_inner_strides ⟨[e], out :: ins⟩).map toInt32).headD 0 *
            (idx : Int))
        (legacy.invoke f ins
          ((TensorIterator.get_inner_strides ⟨[e], out :: ins⟩).map toInt32).tail idx) :=
    rfl
  rw [hbody]
  obtain ⟨st2, hrun2, hpt2, hfr2⟩ :=
    legacy_launch_char false launch_size_1d 1 e (by norm_num [launch_size_1d])
      (by norm_num)
      (fun idx : Nat => out.base +
        ((TensorIterator.get_inner_strides ⟨[e], out :: ins⟩).map toInt32).headD 0 *
          (idx : Int))
      (fun idx : Nat => legacy.invoke f ins
        ((TensorIterator.get_inner_strides ⟨[e], out :: ins⟩).map toInt32).tail idx)
      s (outAddr ⟨[e], out :: ins⟩) (fun p => f (rawReadArgs [e] ins p)) (Or.inr hN)
      (by
        intro p hp
        show out.base +
            ((TensorIterator.get_inner_strides ⟨[e], out :: ins⟩).map toInt32).headD 0 *
              (p : Int) = outAddr ⟨[e], out :: ins⟩ p
        rw [houtA, hgmulOut p hp])
      (by
        intro p hp
        show legacy.invoke f ins
            ((TensorIterator.get_inner_strides ⟨[e], out :: ins⟩).map toInt32).tail p =
          f (rawReadArgs [e] ins p)
        rw [hgtail]
        unfold legacy.invoke
        rw [invoke_list_eq toInt32 ins
          (fun op hop => hgmul op (List.mem_cons_of_mem _ hop) p hp)])
      hinj
  refine ⟨st1, st2, hrun1, hrun2, ?_⟩
  funext a
  by_cases hc : ∃ p, p < e ∧ a = outAddr ⟨[e], out :: ins⟩ p
  · obtain ⟨p, hp, rfl⟩ := hc
    rw [hpt1 p hp, hpt2 p hp]
  · push_neg at hc
    rw [hfr1 a (fun p hp => hc p hp), hfr2 a (fun p hp => hc p hp)]

/-- Output operand of the path-equivalence instantiation. -/
def outC2 : Operand := devOp 0 [4] .int32

/-- Input operands of the path-equivalence instantiation. -/
def insC2 : List Operand := [devOp 100 [4] .int32, devOp 200 [4] .int32]

theorem C2_witness :
    TensorIterator.can_use_32bit_indexing ⟨[5], outC2 :: insC2⟩ = true ∧
    ∃ st1 st2,
      modern.launch_kernel false (warp_size * 2) 4 (TensorIterator.numel ⟨[5], outC2 :: insC2⟩)
          sigC8.ret.esize outC2.base (sigC8.args.headD sigC8.ret).esize
          (insC2.map (fun op => (op.base, op.mem))) f0 s0 = .ok st1 ∧
      legacy.launch_kernel false launch_size_1d 1 (TensorIterator.numel ⟨[5], outC2 :: insC2⟩)
          (trivialBodyNoCast f0 outC2 insC2
            ((TensorIterator.get_inner_strides ⟨[5], outC2 :: insC2⟩).map toInt32)) s0 =
        .ok st2 ∧
      st1.out = st2.out :=
  ⟨by decide,
    C2_path_equivalence sigC8 f0 5 outC2 insC2 s0 ⟨rfl, by decide⟩ (by decide) (by decide)
      (by decide) (by decide)⟩

/-- C1 (amended): for every iteration shape, stride combination (including
zero-stride broadcast axes) and element-type combination satisfying the
iterator guarantees — operand counts and stride ranks well formed, distinct
output addresses for distinct positions, well-typed input buffers, all
operands device-resident — and such that the contiguous vectorized kernel's
documented uniform-argument-type assumption holds whenever that path is
selectable, the dispatch entry point succeeds and writes to each logical
position of the output exactly the function applied pointwise to the
broadcast input elements at that position, leaving every other address
untouched, regardless of which dispatch path is selected. -/
theorem C1_pointwise_correctness (sig : FuncSig) (f : List Int → Int)
    (iter : TensorIterator) (s : DState)
    (hG : GoodIter sig iter) (hret : RetTyped sig f) :
    ∃ st, gpu_kernel sig f iter s = .ok st ∧
      (∀ p, p < iter.numel → st.out (outAddr iter p) = expected sig f iter p) ∧
      (∀ a : Int, (∀ p, p < iter.numel → a ≠ outAddr iter p) → st.out a = s.out a) :=
  gpu_kernel_char sig f iter s hG hret

theorem C1_witness :
    GoodIter sigC8 ⟨[2], outC2 :: insC2⟩ ∧ RetTyped sigC8 f0 ∧
    ∃ st, gpu_kernel sigC8 f0 ⟨[2], outC2 :: insC2⟩ s0 = .ok st ∧
      (∀ p, p < TensorIterator.numel ⟨[2], outC2 :: insC2⟩ →
        st.out (outAddr ⟨[2], outC2 :: insC2⟩ p) =
          expected sigC8 f0 ⟨[2], outC2 :: insC2⟩ p) ∧
      (∀ a : Int, (∀ p, p < TensorIterator.numel ⟨[2], outC2 :: insC2⟩ →
        a ≠ outAddr ⟨[2], outC2 :: insC2⟩ p) → st.out a = s0.out a) := by
  have hmem : InsTyped ⟨[2], outC2 :: insC2⟩ := by
    intro op hop a
    simp only [insC2, devOp, List.tail_cons, List.mem_cons, List.not_mem_nil,
      or_false] at hop
    rcases hop with rfl | rfl <;>
      exact (by decide : ScalarType.inRange .int32 0)
  have hret : RetTyped sigC8 f0 := fun _ => (by decide : ScalarType.inRange .int32 0)
  have hinj : OutInj ⟨[2], outC2 :: insC2⟩ := by
    intro p hp q hq h
    rw [show TensorIterator.numel ⟨[2], outC2 :: insC2⟩ = 2 from rfl] at hp hq
    interval_cases p <;> interval_cases q <;>
      first
      | rfl
      | (exfalso; revert h; decide)
  have hG : GoodIter sigC8 ⟨[2], outC2 :: insC2⟩ :=
    ⟨⟨rfl, by decide⟩, hinj, hmem, Or.inl (by decide), by decide⟩
  exact ⟨hG, hret, C1_pointwise_correctness sigC8 f0 ⟨[2], outC2 :: insC2⟩ s0 hG hret⟩

/-- Whether a dispatch result is a success. -/
def resultOk (r : Except KernelError DState) : Bool :=
  match r with
  | .ok _ => true
  | .error _ => false

/-- Output memory of a dispatch result at one address (0 on error). -/
def resultOut (r : Except KernelError DState) (a : Int) : Int :=
  match r with
  | .ok st => st.out a
  | .error _ => 0

/-- Signature with mixed-size static argument types (int32, int8). -/
def sigC1 : FuncSig := { args := [.int32, .int8], ret := .int32 }

/-- Projection to the second argument. -/
def fC1 : List Int → Int := fun l => l.getD 1 0

/-- Packed int8 input whose stored value equals its offset from base. -/
def in2C1 : Operand :=
  { base := 200, mem := fun a => a - 200, strides := [1], dtype := .int8,
    isCuda := true, cpuScalar := false }

/-- Fully packed two-input iterator with mixed element sizes (4 and 1
bytes): every operand is contiguous and no dynamic casting is needed, so
the dispatch selects the contiguous vectorized kernel. -/
def iterC1 : TensorIterator :=
  ⟨[2], [devOp 0 [4] .int32, devOp 100 [4] .int32, in2C1]⟩

set_option maxRecDepth 40000 in
/-- C1 counterexample to the claim as stated: on a fully packed iterator
whose static argument types have different sizes (int32 and int8), the
dispatch selects the contiguous vectorized kernel, which advances every
argument pointer by the element size of the first argument type; the int8
input is therefore read at byte offset 4 instead of 1 at logical position 1,
and the dispatch writes 4 where the pointwise application of the function to
the broadcast inputs yields 1. -/
theorem C1_counterexample :
    resultOk (gpu_kernel sigC1 fC1 iterC1 s0) = true ∧
    resultOut (gpu_kernel sigC1 fC1 iterC1 s0) (outAddr iterC1 1) = 4 ∧
    expected sigC1 fC1 iterC1 1 = 1 ∧ (4 : Int) ≠ 1 := by
  refine ⟨rfl, by decide, by decide, by decide⟩

/-- C5: splitting equivalence.  For an iterator whose element count exceeds
the maximum 32-bit signed index, the value-returning dispatch recursively
splits the space into in-range sub-iterators and dispatches them
sequentially; the resulting output memory is identical, address for address,
to what a hypothetical single unsplit dispatch over the whole space (the
`ideal` dispatch, which skips the 32-bit assertions and uses exact inner
strides) would produce. -/
theorem C5_split_equivalence (sig : FuncSig) (f : List Int → Int)
    (iter : TensorIterator) (s : DState)
    (hG : GoodIter sig iter) (hret : RetTyped sig f)
    (hbig : 2 ^ 31 - 1 < iter.numel) :
    ∃ st st2, gpu_kernel sig f iter s = .ok st ∧
      gpu_kernel_impl true sig f iter s = .ok st2 ∧
      st.out = st2.out := by
  obtain ⟨st, h1, hpt1, hfr1⟩ := gpu_kernel_char sig f iter s hG hret
  obtain ⟨st2, h2, hpt2, hfr2⟩ :=
    gpu_kernel_impl_char true sig f iter s hG.1 hG.2.1 hG.2.2.1 hret hG.2.2.2.1
      (Or.inl rfl)
  refine ⟨st, st2, h1, h2, ?_⟩
  funext a
  by_cases hc : ∃ p, p < iter.numel ∧ a = outAddr iter p
  · obtain ⟨p, hp, rfl⟩ := hc
    rw [hpt1 p hp, hpt2 p hp]
  · push_neg at hc
    rw [hfr1 a hc, hfr2 a hc]

/-- Iterator with 2^31 elements, exceeding the 32-bit index bound. -/
def iterC5 : TensorIterator :=
  ⟨[2 ^ 31], [devOp 0 [4] .int32, devOp 100 [4] .int32, devOp 200 [1] .int32]⟩

theorem C5_witness :
    GoodIter sigC8 iterC5 ∧ 2 ^ 31 - 1 < TensorIterator.numel iterC5 ∧
    ∃ st st2, gpu_kernel sigC8 f0 iterC5 s0 = .ok st ∧
      gpu_kernel_impl true sigC8 f0 iterC5 s0 = .ok st2 ∧
      st.out = st2.out := by
  have hnum : TensorIterator.numel iterC5 = 2 ^ 31 := by
    norm_num [iterC5, TensorIterator.numel]
  have hinj : OutInj iterC5 := by
    intro p hp q hq h
    rw [hnum] at hp hq
    have key : ∀ r : Nat, r < 2 ^ 31 → outAddr iterC5 r = (r : Int) * 4 := by
      intro r hr
      show (0 : Int) + offsetOf [2 ^ 31] [4] r = (r : Int) * 4
      rw [offsetOf_single hr]
      ring
    rw [key p hp, key q hq] at h
    have h2 := mul_right_cancel₀ (by norm_num : (4 : Int) ≠ 0) h
    exact_mod_cast h2
  have hmem : InsTyped iterC5 := by
    intro op hop a
    simp only [iterC5, devOp, List.tail_cons, List.mem_cons, List.not_mem_nil,
      or_false] at hop
    rcases hop with rfl | rfl <;>
      exact (by decide : ScalarType.inRange .int32 0)
  have hret : RetTyped sigC8 f0 := fun _ => (by decide : ScalarType.inRange .int32 0)
  have hG : GoodIter sigC8 iterC5 :=
    ⟨⟨rfl, by decide⟩, hinj, hmem, Or.inl (by decide), by decide⟩
  have hbig : 2 ^ 31 - 1 < TensorIterator.numel iterC5 := by
    rw [hnum]
    norm_num
  exact ⟨hG, hbig, C5_split_equivalence sigC8 f0 iterC5 s0 hG hret hbig⟩

/-- Materialization of a host-resident scalar operand as a device-resident
full broadcast buffer: every address stores the scalar value (converted to
the function's static argument type, exactly as `scalar_value` reads it) and
every stride is zero, the broadcast encoding. -/
def broadcastOf (op : Operand) (t : ScalarType) (nd : Nat) : Operand :=
  { base := 0, mem := fun _ => castTo t (op.mem op.base),
    strides := List.replicate nd 0, dtype := t, isCuda := true, cpuScalar := false }

/-- Two dispatches with the same output geometry and pointwise-equal
specified values succeed and produce identical output memory. -/
theorem gpu_kernel_out_eq (sigA sigB : FuncSig) (fA fB : List Int → Int)
    (iterA iterB : TensorIterator) (s : DState)
    (hGA : GoodIter sigA iterA) (hretA : RetTyped sigA fA)
    (hGB : GoodIter sigB iterB) (hretB : RetTyped sigB fB)
    (hnum : iterA.numel = iterB.numel)
    (haddr : ∀ p, outAddr iterA p = outAddr iterB p)
    (hval : ∀ p, p < iterA.numel →
      expected sigA fA iterA p = expected sigB fB iterB p) :
    ∃ stA stB, gpu_kernel sigA fA iterA s = .ok stA ∧
      gpu_kernel sigB fB iterB s = .ok stB ∧ stA.out = stB.out := by
  obtain ⟨stA, h1, hpt1, hfr1⟩ := gpu_kernel_char sigA fA iterA s hGA hretA
  obtain ⟨stB, h2, hpt2, hfr2⟩ := gpu_kernel_char sigB fB iterB s hGB hretB
  refine ⟨stA, stB, h1, h2, ?_⟩
  funext a
  by_cases hc : ∃ p, p < iterA.numel ∧ a = outAddr iterA p
  · obtain ⟨p, hp, rfl⟩ := hc
    have hpB : p < iterB.numel := by omega
    rw [hpt1 p hp, haddr p, hpt2 p hpB]
    exact hval p hp
  · push_neg at hc
    refine (hfr1 a hc).trans (hfr2 a ?_).symm
    intro p hp
    have hpA : p < iterA.numel := by omega
    rw [← haddr p]
    exact hc p hpA

/-- C4: scalar lifting.  For a binary function over a 3-operand iterator:
when the first input is a host-resident scalar, the scalar-lifting entry
point reads it out, drops the operand, and dispatches the derived unary
closure that captures the value as first argument; the resulting output
memory is identical to the unmodified binary dispatch over the same
iterator with that operand materialized as a device-resident full broadcast
buffer of the same value.  Symmetrically when the second input is the host
scalar.  When neither input is a host scalar the original binary function is
dispatched unchanged. -/
theorem C4_scalar_lifting (rt a1 a2 : ScalarType) (f : List Int → Int)
    (shape : List Nat) (out op1 op2 : Operand) (s : DState)
    (hwf : WF { args := [a1, a2], ret := rt } ⟨shape, [out, op1, op2]⟩)
    (hinj : OutInj ⟨shape, [out, op1, op2]⟩)
    (hmem : InsTyped ⟨shape, [out, op1, op2]⟩)
    (hret : RetTyped { args := [a1, a2], ret := rt } f)
    (houtc : out.isCuda = true) :
    (op1.cpuScalar = true → op2.isCuda = true → ∃ st st2,
      gpu_kernel_with_scalars { args := [a1, a2], ret := rt } f
        ⟨shape, [out, op1, op2]⟩ s = .ok st ∧
      gpu_kernel { args := [a1, a2], ret := rt } f
        ⟨shape, [out, broadcastOf op1 a1 shape.length, op2]⟩ s = .ok st2 ∧
      st.out = st2.out) ∧
    (op1.cpuScalar = false → op2.cpuScalar = true → op1.isCuda = true → ∃ st st2,
      gpu_kernel_with_scalars { args := [a1, a2], ret := rt } f
        ⟨shape, [out, op1, op2]⟩ s = .ok st ∧
      gpu_kernel { args := [a1, a2], ret := rt } f
        ⟨shape, [out, op1, broadcastOf op2 a2 shape.length]⟩ s = .ok st2 ∧
      st.out = st2.out) ∧
    (op1.cpuScalar = false → op2.cpuScalar = false →
      gpu_kernel_with_scalars { args := [a1, a2], ret := rt } f
        ⟨shape, [out, op1, op2]⟩ s =
      gpu_kernel { args := [a1, a2], ret := rt } f ⟨shape, [out, op1, op2]⟩ s) := by
  have hstl := hwf.2
  have houts : out.strides.length = shape.length :=
    hstl out (show out ∈ [out, op1, op2] by simp)
  have hop1s : op1.strides.length = shape.length :=
    hstl op1 (show op1 ∈ [out, op1, op2] by simp)
  have hop2s : op2.strides.length = shape.length :=
    hstl op2 (show op2 ∈ [out, op1, op2] by simp)
  have hmem1 : ∀ a : Int, op1.dtype.inRange (op1.mem a) :=
    fun a => hmem op1 (show op1 ∈ [op1, op2] by simp) a
  have hmem2 : ∀ a : Int, op2.dtype.inRange (op2.mem a) :=
    fun a => hmem op2 (show op2 ∈ [op1, op2] by simp) a
  have hnt : ¬ (TensorIterator.ntensors ⟨shape, [out, op1, op2]⟩ ≠ 3) :=
    not_not_intro rfl
  have hal : ¬ (({ args := [a1, a2], ret := rt } : FuncSig).args.length ≠ 2) :=
    not_not_intro rfl
  have hc1 : TensorIterator.is_cpu_scalar ⟨shape, [out, op1, op2]⟩ 1 =
      op1.cpuScalar := rfl
  have hc2 : TensorIterator.is_cpu_scalar ⟨shape, [out, op1, op2]⟩ 2 =
      op2.cpuScalar := rfl
  have hesz : ∀ t : ScalarType, (0 : Int) ≠ (t.esize : Int) := by
    intro t h
    have h2 : (0 : Int) < (t.esize : Int) := by exact_mod_cast esize_pos t
    omega
  have hrepl0 : ∀ nd : Nat, (List.replicate nd (0 : Int)).headD 0 = 0 := by
    intro nd
    cases nd
    · rfl
    · rw [List.replicate_succ]
      rfl
  refine ⟨?_, ?_, ?_⟩
  · -- first input is the host scalar
    intro hcpu1 hop2c
    have hleft : gpu_kernel_with_scalars { args := [a1, a2], ret := rt } f
        ⟨shape, [out, op1, op2]⟩ s =
        gpu_kernel { args := [a2], ret := rt }
          (fun bs => f (castTo a1 (op1.mem op1.base) :: bs)) ⟨shape, [out, op2]⟩ s := by
      unfold gpu_kernel_with_scalars
      rw [if_neg hnt, if_neg hal, hc1, hcpu1, if_pos rfl]
      rfl
    have hGA : GoodIter { args := [a2], ret := rt } ⟨shape, [out, op2]⟩ := by
      refine ⟨⟨rfl, ?_⟩, hinj, ?_, Or.inl ?_, ?_⟩
      · intro op hop
        have hop2 : op ∈ [out, op2] := hop
        simp only [List.mem_cons, List.not_mem_nil, or_false] at hop2
        rcases hop2 with rfl | rfl
        · exact houts
        · exact hop2s
      · intro op hop a
        have hop2 : op ∈ [op2] := hop
        simp only [List.mem_singleton] at hop2
        subst hop2
        exact hmem2 a
      · intro t2 ht2
        have h : t2 ∈ [a2] := ht2
        simp only [List.mem_singleton] at h
        exact h
      · show ([out, op2].all (fun op => op.isCuda)) = true
        simp [houtc, hop2c]
    have hGB : GoodIter { args := [a1, a2], ret := rt }
        ⟨shape, [out, broadcastOf op1 a1 shape.length, op2]⟩ := by
      refine ⟨⟨rfl, ?_⟩, hinj, ?_, Or.inr (Or.inr ?_), ?_⟩
      · intro op hop
        have hop2 : op ∈ [out, broadcastOf op1 a1 shape.length, op2] := hop
        simp only [List.mem_cons, List.not_mem_nil, or_false] at hop2
        rcases hop2 with rfl | rfl | rfl
        · exact houts
        · exact List.length_replicate _ _
        · exact hop2s
      · intro op hop a
        have hop2 : op ∈ [broadcastOf op1 a1 shape.length, op2] := hop
        simp only [List.mem_cons, List.not_mem_nil, or_false] at hop2
        rcases hop2 with rfl | rfl
        · exact castTo_inRange a1 (op1.mem op1.base)
        · exact hmem2 a
      · cases hcf : TensorIterator.has_contiguous_first_dim
            ⟨shape, [out, broadcastOf op1 a1 shape.length, op2]⟩
        · rfl
        · exfalso
          have h := contig_heads hcf (broadcastOf op1 a1 shape.length)
            (show _ ∈ [out, broadcastOf op1 a1 shape.length, op2] by simp)
          rw [show (broadcastOf op1 a1 shape.length).strides =
              List.replicate shape.length (0 : Int) from rfl, hrepl0] at h
          exact hesz _ h
      · show ([out, broadcastOf op1 a1 shape.length, op2].all
          (fun op => op.isCuda)) = true
        simp [houtc, hop2c, broadcastOf]
    have hval : ∀ p, p < TensorIterator.numel ⟨shape, [out, op2]⟩ →
        expected { args := [a2], ret := rt }
          (fun bs => f (castTo a1 (op1.mem op1.base) :: bs)) ⟨shape, [out, op2]⟩ p =
        expected { args := [a1, a2], ret := rt } f
          ⟨shape, [out, broadcastOf op1 a1 shape.length, op2]⟩ p := by
      intro p _
      show castTo out.dtype
          (f (castTo a1 (op1.mem op1.base) :: expectedArgs [a2] shape [op2] p)) =
        castTo out.dtype
          (f (expectedArgs [a1, a2] shape [broadcastOf op1 a1 shape.length, op2] p))
      have hargs : expectedArgs [a1, a2] shape [broadcastOf op1 a1 shape.length, op2] p =
          castTo a1 (op1.mem op1.base) :: expectedArgs [a2] shape [op2] p := by
        simp only [expectedArgs, broadcastOf, List.zip, List.zipWith_cons_cons,
          List.map_cons]
        rw [castTo_eq_self (castTo_inRange a1 (op1.mem op1.base))]
      rw [hargs]
    obtain ⟨st, st2, hA, hB, hout⟩ :=
      gpu_kernel_out_eq { args := [a2], ret := rt } { args := [a1, a2], ret := rt }
        (fun bs => f (castTo a1 (op1.mem op1.base) :: bs)) f
        ⟨shape, [out, op2]⟩ ⟨shape, [out, broadcastOf op1 a1 shape.length, op2]⟩ s
        hGA (fun l => hret _) hGB hret rfl (fun p => rfl) hval
    exact ⟨st, st2, hleft.trans hA, hB, hout⟩
  · -- second input is the host scalar
    intro hcpu1 hcpu2 hop1c
    have hleft : gpu_kernel_with_scalars { args := [a1, a2], ret := rt } f
        ⟨shape, [out, op1, op2]⟩ s =
        gpu_kernel { args := [a1], ret := rt }
          (fun as2 => f (as2 ++ [castTo a2 (op2.mem op2.base)]))
          ⟨shape, [out, op1]⟩ s := by
      unfold gpu_kernel_with_scalars
      rw [if_neg hnt, if_neg hal, hc1, hcpu1, if_neg Bool.false_ne_true, hc2, hcpu2,
        if_pos rfl]
      rfl
    have hGA : GoodIter { args := [a1], ret := rt } ⟨shape, [out, op1]⟩ := by
      refine ⟨⟨rfl, ?_⟩, hinj, ?_, Or.inl ?_, ?_⟩
      · intro op hop
        have hop2 : op ∈ [out, op1] := hop
        simp only [List.mem_cons, List.not_mem_nil, or_false] at hop2
        rcases hop2 with rfl | rfl
        · exact houts
        · exact hop1s
      · intro op hop a
        have hop2 : op ∈ [op1] := hop
        simp only [List.mem_singleton] at hop2
        subst hop2
        exact hmem1 a
      · intro t2 ht2
        have h : t2 ∈ [a1] := ht2
        simp only [List.mem_singleton] at h
        exact h
      · show ([out, op1].all (fun op => op.isCuda)) = true
        simp [houtc, hop1c]
    have hGB : GoodIter { args := [a1, a2], ret := rt }
        ⟨shape, [out, op1, broadcastOf op2 a2 shape.length]⟩ := by
      refine ⟨⟨rfl, ?_⟩, hinj, ?_, Or.inr (Or.inr ?_), ?_⟩
      · intro op hop
        have hop2 : op ∈ [out, op1, broadcastOf op2 a2 shape.length] := hop
        simp only [List.mem_cons, List.not_mem_nil, or_false] at hop2
        rcases hop2 with rfl | rfl | rfl
        · exact houts
        · exact hop1s
        · exact List.length_replicate _ _
      · intro op hop a
        have hop2 : op ∈ [op1, broadcastOf op2 a2 shape.length] := hop
        simp only [List.mem_cons, List.not_mem_nil, or_false] at hop2
        rcases hop2 with rfl | rfl
        · exact hmem1 a
        · exact castTo_inRange a2 (op2.mem op2.base)
      · cases hcf : TensorIterator.has_contiguous_first_dim
            ⟨shape, [out, op1, broadcastOf op2 a2 shape.length]⟩
        · rfl
        · exfalso
          have h := contig_heads hcf (broadcastOf op2 a2 shape.length)
            (show _ ∈ [out, op1, broadcastOf op2 a2 shape.length] by simp)
          rw [show (broadcastOf op2 a2 shape.length).strides =
              List.replicate shape.length (0 : Int) from rfl, hrepl0] at h
          exact hesz _ h
      · show ([out, op1, broadcastOf op2 a2 shape.length].all
          (fun op => op.isCuda)) = true
        simp [houtc, hop1c, broadcastOf]
    have hval : ∀ p, p < TensorIterator.numel ⟨shape, [out, op1]⟩ →
        expected { args := [a1], ret := rt }
          (fun as2 => f (as2 ++ [castTo a2 (op2.mem op2.base)]))
          ⟨shape, [out, op1]⟩ p =
        expected { args := [a1, a2], ret := rt } f
          ⟨shape, [out, op1, broadcastOf op2 a2 shape.length]⟩ p := by
      intro p _
      show castTo out.dtype
          (f (expectedArgs [a1] shape [op1] p ++ [castTo a2 (op2.mem op2.base)])) =
        castTo out.dtype
          (f (expectedArgs [a1, a2] shape [op1, broadcastOf op2 a2 shape.length] p))
      have hargs : expectedArgs [a1, a2] shape [op1, broadcastOf op2 a2 shape.length] p =
          expectedArgs [a1] shape [op1] p ++ [castTo a2 (op2.mem op2.base)] := by
        simp only [expectedArgs, broadcastOf, List.zip, List.zipWith_cons_cons,
          List.map_cons, List.zipWith_nil_left, List.zipWith_nil_right, List.map_nil,
          List.cons_append, List.nil_append]
        rw [castTo_eq_self (castTo_inRange a2 (op2.mem op2.base))]
      rw [hargs]
    obtain ⟨st, st2, hA, hB, hout⟩ :=
      gpu_kernel_out_eq { args := [a1], ret := rt } { args := [a1, a2], ret := rt }
        (fun as2 => f (as2 ++ [castTo a2 (op2.mem op2.base)])) f
        ⟨shape, [out, op1]⟩ ⟨shape, [out, op1, broadcastOf op2 a2 shape.length]⟩ s
        hGA (fun l => hret _) hGB hret rfl (fun p => rfl) hval
    exact ⟨st, st2, hleft.trans hA, hB, hout⟩
  · -- neither input is a host scalar: dispatch unchanged
    intro hcpu1 hcpu2
    unfold gpu_kernel_with_scalars
    rw [if_neg hnt, if_neg hal, hc1, hcpu1, if_neg Bool.false_ne_true, hc2, hcpu2,
      if_neg Bool.false_ne_true]

/-- Host-resident scalar operand holding 7. -/
def opC4s : Operand :=
  { base := 300, mem := fun _ => 7, strides := [0], dtype := .int32,
    isCuda := false, cpuScalar := true }

/-- Device-resident packed operand. -/
def opC4d : Operand := devOp 100 [4] .int32

theorem C4_witness :
    opC4s.cpuScalar = true ∧ opC4d.isCuda = true ∧
    (∃ st st2,
      gpu_kernel_with_scalars sigC8 f0 ⟨[2], [outC2, opC4s, opC4d]⟩ s0 = .ok st ∧
      gpu_kernel sigC8 f0 ⟨[2], [outC2, broadcastOf opC4s .int32 1, opC4d]⟩ s0 =
        .ok st2 ∧
      st.out = st2.out) ∧
    (∃ st st2,
      gpu_kernel_with_scalars sigC8 f0 ⟨[2], [outC2, opC4d, opC4s]⟩ s0 = .ok st ∧
      gpu_kernel sigC8 f0 ⟨[2], [outC2, opC4d, broadcastOf opC4s .int32 1]⟩ s0 =
        .ok st2 ∧
      st.out = st2.out) ∧
    gpu_kernel_with_scalars sigC8 f0 ⟨[2], outC2 :: insC2⟩ s0 =
      gpu_kernel sigC8 f0 ⟨[2], outC2 :: insC2⟩ s0 := by
  have hret : RetTyped sigC8 f0 := fun _ => (by decide : ScalarType.inRange .int32 0)
  have hinj : OutInj ⟨[2], [outC2, opC4s, opC4d]⟩ := by
    intro p hp q hq h
    rw [show TensorIterator.numel ⟨[2], [outC2, opC4s, opC4d]⟩ = 2 from rfl] at hp hq
    interval_cases p <;> interval_cases q <;>
      first
      | rfl
      | (exfalso; revert h; decide)
  have hmemA : InsTyped ⟨[2], [outC2, opC4s, opC4d]⟩ := by
    intro op hop a
    have hop2 : op ∈ [opC4s, opC4d] := hop
    simp only [List.mem_cons, List.not_mem_nil, or_false] at hop2
    rcases hop2 with rfl | rfl
    · exact (by decide : ScalarType.inRange .int32 7)
    · exact (by decide : ScalarType.inRange .int32 0)
  have hmemB : InsTyped ⟨[2], [outC2, opC4d, opC4s]⟩ := by
    intro op hop a
    have hop2 : op ∈ [opC4d, opC4s] := hop
    simp only [List.mem_cons, List.not_mem_nil, or_false] at hop2
    rcases hop2 with rfl | rfl
    · exact (by decide : ScalarType.inRange .int32 0)
    · exact (by decide : ScalarType.inRange .int32 7)
  have hmemC : InsTyped ⟨[2], outC2 :: insC2⟩ := by
    intro op hop a
    have hop2 : op ∈ insC2 := hop
    simp only [insC2, List.mem_cons, List.not_mem_nil, or_false] at hop2
    rcases hop2 with rfl | rfl
    · exact (by decide : ScalarType.inRange .int32 0)
    · exact (by decide : ScalarType.inRange .int32 0)
  refine ⟨rfl, rfl, ?_, ?_, ?_⟩
  · exact (C4_scalar_lifting .int32 .int32 .int32 f0 [2] outC2 opC4s opC4d s0
      ⟨rfl, by decide⟩ hinj hmemA hret rfl).1 rfl rfl
  · exact (C4_scalar_lifting .int32 .int32 .int32 f0 [2] outC2 opC4d opC4s s0
      ⟨rfl, by decide⟩ hinj hmemB hret rfl).2.1 rfl rfl rfl
  · exact (C4_scalar_lifting .int32 .int32 .int32 f0 [2] outC2 (devOp 100 [4] .int32)
      (devOp 200 [4] .int32) s0 ⟨rfl, by decide⟩ hinj hmemC hret rfl).2.2 rfl rfl

/-- C7 counterexample to the claim as stated: with the general strided
kernel's launch geometry (block size 128, unroll 4) over 1024 elements there
are 2 groups, hence 256 execution units in total, yet the consecutive
elements owned by unit (block 0, thread 0) are 128 apart — the per-group
unit count — not 256 apart. -/
theorem C7_counterexample :
    threadIdxList launch_size_nd launch_bound2 1024 0 0 = [0, 128, 256, 384] ∧
    gridSize launch_size_nd launch_bound2 1024 * launch_size_nd = 256 ∧
    (128 : Nat) - 0 ≠ 256 := by
  refine ⟨?_, by decide, by decide⟩
  decide

end PTLoops
